import Mathlib

/-!
Verification of the terminal-game-engine core (`src/engine/src/lib.rs`)
against its natural-language specification.

The Rust code is shallowly embedded: `Map`, `MapTile`, `World`,
`EntityData` become Lean structures; `Vec` becomes `List`; `HashMap`
becomes an association list with replace-or-append insertion; the `u16`
coordinates become `Nat` with explicit `% 65536` wrapping where u16
arithmetic matters; the fallible tile indexing of `query_map` (which can
panic in Rust) returns `Option`.  Entity behaviors (Rust
`Box<dyn Entity>`) are embedded as scripts of context-surface actions
(`add_entity`, `remove_entity`, map writes, attribute sets), one action
list for `start` and one per `update` call, which is exactly the surface
the engine exposes to entities.
-/

set_option maxHeartbeats 1000000

namespace TermEngine

/-- Crossterm-style colors, restricted to the variants the repository uses. -/
inductive Color where
  | black
  | white
  | red
  | green
  | blue
  | yellow
  deriving DecidableEq, Repr

/-- One cell of the grid: `MapTile` in `lib.rs` (glyph, color, and the two
occupant lists `current_contents` / `previous_contents`). -/
structure MapTile where
  display_character : Char
  color : Color
  current_contents : List Int
  previous_contents : List Int
  deriving DecidableEq, Repr

/-- The grid surface: `Map` in `lib.rs`.  `tiles` is column-major, indexed
`tiles[x][y]` with `x < width`, `y < height`, exactly as the source. -/
structure Map where
  width : Nat
  height : Nat
  tiles : List (List MapTile)
  deriving DecidableEq, Repr

/-- Replace the element at index `n` by `f` of it; out-of-range indices leave
the list unchanged.  Models in-place mutation of a `Vec` element. -/
def listModify (f : α → α) : Nat → List α → List α
  | _, [] => []
  | 0, a :: as => f a :: as
  | n + 1, a :: as => a :: listModify f n as

/-- The tile the engine was constructed with in `Map::new`. -/
def MapTile.initial : MapTile :=
  { display_character := '#'
    color := Color.black
    current_contents := []
    previous_contents := [] }

/-- Embedding of `Map::new`: a `width × height` grid of `'#'`-on-black tiles
with empty occupant lists. -/
def Map.new (width height : Nat) : Map :=
  { width := width
    height := height
    tiles := List.replicate width (List.replicate height MapTile.initial) }

/-- Embedding of the per-tile body of `Map::clear`: glyph to space, color to
black, `previous_contents` replaced by the old `current_contents`, which is
left empty. -/
def MapTile.clearTile (t : MapTile) : MapTile :=
  { display_character := ' '
    color := Color.black
    current_contents := []
    previous_contents := t.current_contents }

/-- Embedding of `Map::clear`: apply `clearTile` to every tile. -/
def Map.clear (m : Map) : Map :=
  { m with tiles := m.tiles.map (fun col => col.map MapTile.clearTile) }

/-- The value of `w as u16 - 1` computed with u16 wrap-around, as in
`self.width as u16 - 1` in `Map::write`. -/
def u16dec (w : Nat) : Nat := (w % 65536 + 65535) % 65536

/-- The cell a write to raw position `p` lands in: `p.clamp(0, dim-1)`
componentwise.  On the unsigned `u16` coordinates `clamp(0, hi)` is `min`. -/
def clampPos (width height : Nat) (p : Nat × Nat) : Nat × Nat :=
  (min p.1 (u16dec width), min p.2 (u16dec height))

/-- Embedding of `Map::write`: clamp the position, overwrite the target
tile's glyph and color, append `id` to its `current_contents`. -/
def Map.write (m : Map) (p : Nat × Nat) (ch : Char) (co : Color) (id : Int) :
    Map :=
  let q := clampPos m.width m.height p
  { m with
      tiles :=
        listModify
          (listModify
            (fun t =>
              { t with
                  display_character := ch
                  color := co
                  current_contents := t.current_contents ++ [id] })
            q.2)
          q.1 m.tiles }

/-- Read the tile at `(x, y)`; the defaults are irrelevant whenever the
indices are in range of a well-formed map. -/
def Map.tileAt (m : Map) (x y : Nat) : MapTile :=
  (m.tiles.getD x []).getD y MapTile.initial

/-- Embedding of `World::draw`: for every cell in range, emit a draw call
with its glyph and color unless both occupant lists are empty. -/
def Map.drawCalls (m : Map) : List ((Nat × Nat) × Char × Color) :=
  (List.range m.width).flatMap fun c =>
    (List.range m.height).filterMap fun r =>
      let t := m.tileAt c r
      if t.current_contents = [] ∧ t.previous_contents = [] then none
      else some ((c, r), t.display_character, t.color)

/-- Well-formedness of a map: positive dimensions that the `usize → u16`
casts in `Map::write` preserve, and a tile array of exactly the declared
shape (as `Map::new` builds it). -/
structure WFMap (m : Map) : Prop where
  wpos : 1 ≤ m.width
  wmax : m.width ≤ 65535
  hpos : 1 ≤ m.height
  hmax : m.height ≤ 65535
  cols : m.tiles.length = m.width
  rows : ∀ col ∈ m.tiles, col.length = m.height

theorem u16dec_eq {w : Nat} (h1 : 1 ≤ w) (h2 : w ≤ 65535) :
    u16dec w = w - 1 := by
  unfold u16dec
  have hlt : w < 65536 := by omega
  rw [Nat.mod_eq_of_lt hlt]
  have : w + 65535 = 65536 + (w - 1) := by omega
  rw [this, Nat.add_mod_left, Nat.mod_eq_of_lt (by omega)]

theorem listModify_length (f : α → α) (n : Nat) (l : List α) :
    (listModify f n l).length = l.length := by
  induction l generalizing n with
  | nil => cases n <;> rfl
  | cons a as ih =>
    cases n with
    | zero => rfl
    | succ k => simpa [listModify] using ih k

theorem listModify_getD (f : α → α) (n : Nat) (l : List α) (j : Nat)
    (hj : j < l.length) (d : α) :
    (listModify f n l).getD j d =
      if n = j then f (l.getD j d) else l.getD j d := by
  induction l generalizing n j with
  | nil => simp at hj
  | cons a as ih =>
    cases n with
    | zero =>
      cases j with
      | zero => simp [listModify]
      | succ j' => simp [listModify]
    | succ k =>
      cases j with
      | zero => simp [listModify]
      | succ j' =>
        have hj' : j' < as.length := by simpa using hj
        simpa [listModify, Nat.succ_inj] using ih k j' hj'

theorem listModify_mem (f : α → α) (n : Nat) (l : List α) :
    ∀ x ∈ listModify f n l, x ∈ l ∨ ∃ y ∈ l, x = f y := by
  induction l generalizing n with
  | nil => intro x hx; simp [listModify] at hx
  | cons a as ih =>
    cases n with
    | zero =>
      intro x hx
      rcases List.mem_cons.mp hx with hx | hx
      · exact Or.inr ⟨a, by simp, hx⟩
      · exact Or.inl (by simp [hx])
    | succ k =>
      intro x hx
      rcases List.mem_cons.mp hx with hx | hx
      · exact Or.inl (by simp [hx])
      · rcases ih k x hx with h | ⟨y, hy, hxy⟩
        · exact Or.inl (by simp [h])
        · exact Or.inr ⟨y, by simp [hy], hxy⟩

theorem getD_map (f : α → β) (l : List α) (x : Nat) (hx : x < l.length)
    (d : β) (d' : α) : (l.map f).getD x d = f (l.getD x d') := by
  induction l generalizing x with
  | nil => simp at hx
  | cons a as ih =>
    cases x with
    | zero => simp
    | succ k =>
      have hk : k < as.length := by simpa using hx
      simpa using ih k hk

theorem getD_mem (l : List α) (x : Nat) (hx : x < l.length) (d : α) :
    l.getD x d ∈ l := by
  induction l generalizing x with
  | nil => simp at hx
  | cons a as ih =>
    cases x with
    | zero => simp
    | succ k =>
      have hk : k < as.length := by simpa using hx
      simpa using Or.inr (ih k hk)

/-- The effect of `Map::write` on the tile it lands in. -/
def MapTile.writeTile (t : MapTile) (ch : Char) (co : Color) (id : Int) :
    MapTile :=
  { t with
      display_character := ch
      color := co
      current_contents := t.current_contents ++ [id] }

theorem Map.write_width (m : Map) (p ch co id) :
    (Map.write m p ch co id).width = m.width := rfl

theorem Map.write_height (m : Map) (p ch co id) :
    (Map.write m p ch co id).height = m.height := rfl

theorem Map.clear_width (m : Map) : m.clear.width = m.width := rfl

theorem Map.clear_height (m : Map) : m.clear.height = m.height := rfl

theorem clampPos_lt {w h : Nat} (hw1 : 1 ≤ w) (hw2 : w ≤ 65535)
    (hh1 : 1 ≤ h) (hh2 : h ≤ 65535) (p : Nat × Nat) :
    (clampPos w h p).1 < w ∧ (clampPos w h p).2 < h := by
  unfold clampPos
  rw [u16dec_eq hw1 hw2, u16dec_eq hh1 hh2]
  constructor
  · exact lt_of_le_of_lt (min_le_right _ _) (by omega)
  · exact lt_of_le_of_lt (min_le_right _ _) (by omega)

theorem WFMap.write {m : Map} (hm : WFMap m) (p ch co id) :
    WFMap (Map.write m p ch co id) := by
  refine ⟨hm.wpos, hm.wmax, hm.hpos, hm.hmax, ?_, ?_⟩
  · show (listModify _ _ m.tiles).length = m.width
    rw [listModify_length]; exact hm.cols
  · intro col hcol
    rcases listModify_mem _ _ _ col hcol with h | ⟨y, hy, hxy⟩
    · exact hm.rows col h
    · rw [hxy, listModify_length]; exact hm.rows y hy

theorem WFMap.clear {m : Map} (hm : WFMap m) : WFMap m.clear := by
  refine ⟨hm.wpos, hm.wmax, hm.hpos, hm.hmax, ?_, ?_⟩
  · show (m.tiles.map _).length = m.width
    rw [List.length_map]; exact hm.cols
  · intro col hcol
    rcases List.mem_map.mp hcol with ⟨y, hy, hxy⟩
    rw [← hxy, List.length_map]; exact hm.rows y hy

theorem WFMap.new {W H : Nat} (hW1 : 1 ≤ W) (hW2 : W ≤ 65535)
    (hH1 : 1 ≤ H) (hH2 : H ≤ 65535) : WFMap (Map.new W H) := by
  refine ⟨hW1, hW2, hH1, hH2, by simp [Map.new], ?_⟩
  intro col hcol
  rcases List.eq_of_mem_replicate hcol with rfl
  simp [Map.new]

theorem getD_replicate {n x : Nat} (hx : x < n) (a d : α) :
    (List.replicate n a).getD x d = a := by
  induction n generalizing x with
  | zero => omega
  | succ k ih =>
    cases x with
    | zero => simp
    | succ j =>
      have hj : j < k := by omega
      simpa [List.replicate] using ih hj

theorem Map.tileAt_new {W H x y : Nat} (hx : x < W) (hy : y < H) :
    (Map.new W H).tileAt x y = MapTile.initial := by
  unfold Map.new Map.tileAt
  rw [getD_replicate hx, getD_replicate hy]

theorem Map.tileAt_clear {m : Map} (hm : WFMap m) {x y : Nat}
    (hx : x < m.width) (hy : y < m.height) :
    m.clear.tileAt x y = (m.tileAt x y).clearTile := by
  unfold Map.clear Map.tileAt
  have hxl : x < m.tiles.length := by rw [hm.cols]; exact hx
  have hcol : m.tiles.getD x [] ∈ m.tiles := getD_mem _ _ hxl _
  have hyl : y < (m.tiles.getD x []).length := by
    rw [hm.rows _ hcol]; exact hy
  rw [getD_map _ _ _ hxl _ []]
  exact getD_map _ _ _ hyl _ MapTile.initial

theorem Map.tileAt_write {m : Map} (hm : WFMap m) (p : Nat × Nat)
    (ch : Char) (co : Color) (id : Int) {x y : Nat}
    (hx : x < m.width) (hy : y < m.height) :
    (Map.write m p ch co id).tileAt x y =
      if clampPos m.width m.height p = (x, y) then
        (m.tileAt x y).writeTile ch co id
      else m.tileAt x y := by
  unfold Map.write Map.tileAt
  have hxl : x < m.tiles.length := by rw [hm.cols]; exact hx
  have hcol : m.tiles.getD x [] ∈ m.tiles := getD_mem _ _ hxl _
  have hyl : y < (m.tiles.getD x []).length := by
    rw [hm.rows _ hcol]; exact hy
  rw [listModify_getD _ _ _ _ hxl]
  by_cases h1 : (clampPos m.width m.height p).1 = x
  · rw [if_pos h1, listModify_getD _ _ _ _ hyl]
    by_cases h2 : (clampPos m.width m.height p).2 = y
    · rw [if_pos h2, if_pos (by rw [Prod.ext_iff]; exact ⟨h1, h2⟩)]
      rfl
    · rw [if_neg h2, if_neg (by rw [Prod.ext_iff]; exact fun hc => h2 hc.2)]
  · rw [if_neg h1, if_neg (by rw [Prod.ext_iff]; exact fun hc => h1 hc.1)]

/-- One write request of a frame: raw (unclamped) position, glyph, color,
owner handle. -/
structure FrameWrite where
  pos : Nat × Nat
  glyph : Char
  color : Color
  owner : Int
  deriving DecidableEq, Repr

/-- All writes issued during one frame, in issue order. -/
def Frame := List FrameWrite

/-- Apply all of a frame's writes, in order. -/
def Map.applyWrites (m : Map) (f : Frame) : Map :=
  f.foldl (fun acc fw => acc.write fw.pos fw.glyph fw.color fw.owner) m

/-- One full frame at the grid level: the writes of the frame followed by
the tick's `clear` (the flush to the renderer reads, but does not change,
the map in between). -/
def Map.runFrame (m : Map) (f : Frame) : Map := (m.applyWrites f).clear

/-- Run a sequence of frames. -/
def Map.runFrames (m : Map) (fs : List Frame) : Map :=
  fs.foldl Map.runFrame m

/-- The owner handles of a frame's writes that land (after clamping) in
cell `(x, y)`, in issue order, duplicates kept. -/
def writersTo (w h : Nat) (f : Frame) (x y : Nat) : List Int :=
  f.filterMap fun fw =>
    if clampPos w h fw.pos = (x, y) then some fw.owner else none

theorem Map.applyWrites_width (m : Map) (f : Frame) :
    (m.applyWrites f).width = m.width := by
  induction f generalizing m with
  | nil => rfl
  | cons fw fs ih => simpa [Map.applyWrites] using ih (m.write _ _ _ _)

theorem Map.applyWrites_height (m : Map) (f : Frame) :
    (m.applyWrites f).height = m.height := by
  induction f generalizing m with
  | nil => rfl
  | cons fw fs ih => simpa [Map.applyWrites] using ih (m.write _ _ _ _)

theorem WFMap.applyWrites {m : Map} (hm : WFMap m) (f : Frame) :
    WFMap (m.applyWrites f) := by
  induction f generalizing m with
  | nil => exact hm
  | cons fw fs ih => exact ih (hm.write _ _ _ _)

theorem WFMap.runFrame {m : Map} (hm : WFMap m) (f : Frame) :
    WFMap (m.runFrame f) := (hm.applyWrites f).clear

theorem Map.runFrame_width (m : Map) (f : Frame) :
    (m.runFrame f).width = m.width := by
  show (m.applyWrites f).clear.width = m.width
  rw [Map.clear_width, Map.applyWrites_width]

theorem Map.runFrame_height (m : Map) (f : Frame) :
    (m.runFrame f).height = m.height := by
  show (m.applyWrites f).clear.height = m.height
  rw [Map.clear_height, Map.applyWrites_height]

theorem WFMap.runFrames {m : Map} (hm : WFMap m) (fs : List Frame) :
    WFMap (m.runFrames fs) := by
  induction fs generalizing m with
  | nil => exact hm
  | cons f fs ih => exact ih (hm.runFrame f)

theorem Map.runFrames_width (m : Map) (fs : List Frame) :
    (m.runFrames fs).width = m.width := by
  induction fs generalizing m with
  | nil => rfl
  | cons f fs ih =>
    show ((m.runFrame f).runFrames fs).width = m.width
    rw [ih, Map.runFrame_width]

theorem Map.runFrames_height (m : Map) (fs : List Frame) :
    (m.runFrames fs).height = m.height := by
  induction fs generalizing m with
  | nil => rfl
  | cons f fs ih =>
    show ((m.runFrame f).runFrames fs).height = m.height
    rw [ih, Map.runFrame_height]

/-- The occupant lists after a frame's writes: writes append exactly the
landing owners to `current_contents` and leave `previous_contents` alone. -/
theorem Map.applyWrites_tileAt {m : Map} (hm : WFMap m) (f : Frame)
    {x y : Nat} (hx : x < m.width) (hy : y < m.height) :
    ((m.applyWrites f).tileAt x y).current_contents =
        (m.tileAt x y).current_contents ++ writersTo m.width m.height f x y ∧
      ((m.applyWrites f).tileAt x y).previous_contents =
        (m.tileAt x y).previous_contents ∧
      (writersTo m.width m.height f x y = [] →
        (m.applyWrites f).tileAt x y = m.tileAt x y) := by
  induction f generalizing m with
  | nil => simp [Map.applyWrites, writersTo]
  | cons fw fs ih =>
    have hm' : WFMap (m.write fw.pos fw.glyph fw.color fw.owner) :=
      hm.write _ _ _ _
    have hx' : x < (m.write fw.pos fw.glyph fw.color fw.owner).width := hx
    have hy' : y < (m.write fw.pos fw.glyph fw.color fw.owner).height := hy
    have step := ih hm' hx' hy'
    rw [Map.write_width, Map.write_height] at step
    have hw := Map.tileAt_write hm fw.pos fw.glyph fw.color fw.owner hx hy
    have happ : m.applyWrites (fw :: fs) =
        (m.write fw.pos fw.glyph fw.color fw.owner).applyWrites fs := rfl
    by_cases hc : clampPos m.width m.height fw.pos = (x, y)
    · rw [if_pos hc] at hw
      have hwr : writersTo m.width m.height (fw :: fs) x y =
          fw.owner :: writersTo m.width m.height fs x y := by
        simp [writersTo, hc]
      refine ⟨?_, ?_, ?_⟩
      · rw [happ, step.1, hw, hwr]
        simp [MapTile.writeTile]
      · rw [happ, step.2.1, hw]
        simp [MapTile.writeTile]
      · intro hnil; rw [hwr] at hnil; exact absurd hnil (by simp)
    · rw [if_neg hc] at hw
      have hwr : writersTo m.width m.height (fw :: fs) x y =
          writersTo m.width m.height fs x y := by
        simp [writersTo, hc]
      refine ⟨?_, ?_, ?_⟩
      · rw [happ, step.1, hw, hwr]
      · rw [happ, step.2.1, hw]
      · intro hnil
        rw [hwr] at hnil
        rw [happ, step.2.2 hnil, hw]

/-- After any completed frame, every in-range cell has an empty
`current_contents` (the clear step moved it into `previous_contents`). -/
theorem Map.runFrame_current_empty {m : Map} (hm : WFMap m) (f : Frame)
    {x y : Nat} (hx : x < m.width) (hy : y < m.height) :
    ((m.runFrame f).tileAt x y).current_contents = [] := by
  show ((m.applyWrites f).clear.tileAt x y).current_contents = []
  rw [Map.tileAt_clear (hm.applyWrites f)
    (by rw [Map.applyWrites_width]; exact hx)
    (by rw [Map.applyWrites_height]; exact hy)]
  rfl

theorem Map.runFrames_current_empty {W H : Nat} (hW1 : 1 ≤ W)
    (hW2 : W ≤ 65535) (hH1 : 1 ≤ H) (hH2 : H ≤ 65535) (fs : List Frame)
    {x y : Nat} (hx : x < W) (hy : y < H) :
    (((Map.new W H).runFrames fs).tileAt x y).current_contents = [] := by
  rcases List.eq_nil_or_concat fs with rfl | ⟨gs, g, rfl⟩
  · simp only [Map.runFrames, List.foldl_nil]
    rw [Map.tileAt_new hx hy]; rfl
  · rw [List.concat_eq_append]
    have hfold : (Map.new W H).runFrames (gs ++ [g]) =
        ((Map.new W H).runFrames gs).runFrame g := by
      unfold Map.runFrames
      rw [List.foldl_append]
      rfl
    rw [hfold]
    have hwf : WFMap ((Map.new W H).runFrames gs) :=
      (WFMap.new hW1 hW2 hH1 hH2).runFrames gs
    exact Map.runFrame_current_empty hwf g
      (by rw [Map.runFrames_width]; exact hx)
      (by rw [Map.runFrames_height]; exact hy)

/-- Full tile characterization after one more frame on an engine-initial map:
the clear step leaves glyph space on black, an empty `current_contents`, and
a `previous_contents` equal to exactly the frame's landing writers. -/
theorem Map.newRunFrame_tileAt {W H : Nat} (hW1 : 1 ≤ W) (hW2 : W ≤ 65535)
    (hH1 : 1 ≤ H) (hH2 : H ≤ 65535) (fs : List Frame) (f : Frame)
    {x y : Nat} (hx : x < W) (hy : y < H) :
    (((Map.new W H).runFrames fs).runFrame f).tileAt x y =
      { display_character := ' '
        color := Color.black
        current_contents := []
        previous_contents := writersTo W H f x y } := by
  have hwf : WFMap ((Map.new W H).runFrames fs) :=
    (WFMap.new hW1 hW2 hH1 hH2).runFrames fs
  have hw : ((Map.new W H).runFrames fs).width = W := Map.runFrames_width _ _
  have hh : ((Map.new W H).runFrames fs).height = H := Map.runFrames_height _ _
  have hx' : x < ((Map.new W H).runFrames fs).width := by rw [hw]; exact hx
  have hy' : y < ((Map.new W H).runFrames fs).height := by rw [hh]; exact hy
  show (((Map.new W H).runFrames fs).applyWrites f).clear.tileAt x y = _
  rw [Map.tileAt_clear (hwf.applyWrites f)
    (by rw [Map.applyWrites_width]; exact hx')
    (by rw [Map.applyWrites_height]; exact hy')]
  have hcur := (Map.applyWrites_tileAt hwf f hx' hy').1
  rw [Map.runFrames_current_empty hW1 hW2 hH1 hH2 fs hx hy] at hcur
  rw [hw, hh] at hcur
  unfold MapTile.clearTile
  rw [hcur]
  simp

/-- C1: after the tick's clear, a cell's `previous_occupants` equals exactly
the `current_occupants` accumulated during the frame that just completed
(the clamped-landing writers of that frame, in order), and
`current_occupants` is left empty; hence a handle written to the cell during
tick k is reported by occupancy reads (which consult `previous_contents`)
exactly during tick k+1, and no longer once a clear completes a frame in
which the handle did not write to the cell. -/
theorem clear_occupancy_lag {W H : Nat} (hW1 : 1 ≤ W) (hW2 : W ≤ 65535)
    (hH1 : 1 ≤ H) (hH2 : H ≤ 65535) (fs : List Frame) (f : Frame)
    {x y : Nat} (hx : x < W) (hy : y < H) :
    ((((Map.new W H).runFrames fs).runFrame f).tileAt x y).previous_contents
        = writersTo W H f x y ∧
      ((((Map.new W H).runFrames fs).runFrame f).tileAt x y).current_contents
        = [] ∧
      ∀ h : Int,
        h ∈ ((((Map.new W H).runFrames fs).runFrame f).tileAt x y).previous_contents
          ↔ h ∈ writersTo W H f x y := by
  rw [Map.newRunFrame_tileAt hW1 hW2 hH1 hH2 fs f hx hy]
  exact ⟨rfl, rfl, fun h => Iff.rfl⟩

/-- Witness for `clear_occupancy_lag`: on the repository's 25×15 grid, a
single write of handle 1 to cell `(10, 10)` during a frame is exactly what
the cell's `previous_occupants` holds after that frame's clear, while
`current_occupants` is empty. -/
theorem clear_occupancy_lag_witness :
    ((((Map.new 25 15).runFrames []).runFrame
          [⟨(10, 10), '*', Color.blue, 1⟩]).tileAt 10 10).previous_contents
        = [1] ∧
      ((((Map.new 25 15).runFrames []).runFrame
          [⟨(10, 10), '*', Color.blue, 1⟩]).tileAt 10 10).current_contents
        = [] := by
  have h := clear_occupancy_lag (W := 25) (H := 15) (by decide) (by decide)
    (by decide) (by decide) [] [⟨(10, 10), '*', Color.blue, 1⟩]
    (x := 10) (y := 10) (by decide) (by decide)
  exact ⟨h.1.trans (by decide), h.2.1⟩

/-- C7 counterexample: positions are unsigned 16-bit, so the coordinate −5
of the spec's example is the u16 value 65531 (its two's-complement image);
on the 25×15 grid that clamps to column 24, not column 0.  The write lands
in cell `(24, 14)` while cell `(0, 14)` is untouched, refuting the claimed
landing cell `(0, 14)`. -/
theorem write_clamp_cex :
    ((-5 : Int).emod 65536).toNat = 65531 ∧
      (((Map.new 25 15).write (((-5 : Int).emod 65536).toNat, 1000) '*'
            Color.blue 7).tileAt 24 14).current_contents = [7] ∧
      (((Map.new 25 15).write (((-5 : Int).emod 65536).toNat, 1000) '*'
            Color.blue 7).tileAt 0 14).current_contents = [] ∧
      ((Map.new 25 15).write (((-5 : Int).emod 65536).toNat, 1000) '*'
            Color.blue 7).tileAt 0 14 = (Map.new 25 15).tileAt 0 14 := by
  decide

/-- C7 as amended: `write` clamps each (unsigned) coordinate to the range
`[0, dim-1]` by `min` (no coordinate is rejected and none faults, but there
are no negative coordinates: the u16 image of −5 is 65531, which clamps to
`width-1`), overwrites the landing tile's glyph and color unconditionally,
appends the owner to its `current_occupants` (no deduplication, insertion
order kept), and leaves every other cell unchanged. -/
theorem write_clamp_spec (m : Map) (hm : WFMap m) (p : Nat × Nat)
    (ch : Char) (co : Color) (id : Int) :
    clampPos m.width m.height p =
        (min p.1 (m.width - 1), min p.2 (m.height - 1)) ∧
      (m.write p ch co id).tileAt (min p.1 (m.width - 1))
          (min p.2 (m.height - 1)) =
        (m.tileAt (min p.1 (m.width - 1))
          (min p.2 (m.height - 1))).writeTile ch co id ∧
      ((m.write p ch co id).tileAt (min p.1 (m.width - 1))
          (min p.2 (m.height - 1))).current_contents =
        (m.tileAt (min p.1 (m.width - 1))
          (min p.2 (m.height - 1))).current_contents ++ [id] ∧
      ∀ x y, x < m.width → y < m.height →
        (x, y) ≠ (min p.1 (m.width - 1), min p.2 (m.height - 1)) →
        (m.write p ch co id).tileAt x y = m.tileAt x y := by
  have hclamp : clampPos m.width m.height p =
      (min p.1 (m.width - 1), min p.2 (m.height - 1)) := by
    unfold clampPos
    rw [u16dec_eq hm.wpos hm.wmax, u16dec_eq hm.hpos hm.hmax]
  have hxr : min p.1 (m.width - 1) < m.width :=
    lt_of_le_of_lt (min_le_right _ _) (by have := hm.wpos; omega)
  have hyr : min p.2 (m.height - 1) < m.height :=
    lt_of_le_of_lt (min_le_right _ _) (by have := hm.hpos; omega)
  refine ⟨hclamp, ?_, ?_, ?_⟩
  · rw [Map.tileAt_write hm p ch co id hxr hyr, hclamp, if_pos rfl]
  · rw [Map.tileAt_write hm p ch co id hxr hyr, hclamp, if_pos rfl]
    rfl
  · intro x y hx hy hne
    rw [Map.tileAt_write hm p ch co id hx hy, hclamp,
      if_neg (fun hc => hne hc.symm)]

/-- Witness for `write_clamp_spec`: the out-of-range write at
`(65531, 1000)` on the 25×15 grid lands in cell `(24, 14)`. -/
theorem write_clamp_spec_witness :
    clampPos 25 15 (65531, 1000) = (24, 14) ∧
      ((Map.new 25 15).write (65531, 1000) '@' Color.red 3).tileAt 24 14 =
        ((Map.new 25 15).tileAt 24 14).writeTile '@' Color.red 3 := by
  have h := write_clamp_spec (Map.new 25 15)
    (WFMap.new (by decide) (by decide) (by decide) (by decide))
    (65531, 1000) '@' Color.red 3
  refine ⟨h.1.trans (by decide), ?_⟩
  have h2 := h.2.1
  simpa using h2

/-- Membership in the flush's draw-call list: precisely the in-range cells
whose two occupant lists are not both empty, drawn with their current glyph
and color. -/
theorem Map.mem_drawCalls (m : Map) (q : (Nat × Nat) × Char × Color) :
    q ∈ m.drawCalls ↔
      q.1.1 < m.width ∧ q.1.2 < m.height ∧
        ¬((m.tileAt q.1.1 q.1.2).current_contents = [] ∧
          (m.tileAt q.1.1 q.1.2).previous_contents = []) ∧
        q.2.1 = (m.tileAt q.1.1 q.1.2).display_character ∧
        q.2.2 = (m.tileAt q.1.1 q.1.2).color := by
  unfold Map.drawCalls
  rw [List.mem_flatMap]
  constructor
  · rintro ⟨c, hc, hq⟩
    rw [List.mem_filterMap] at hq
    rcases hq with ⟨r, hr, heq⟩
    rw [List.mem_range] at hc hr
    by_cases hemp : (m.tileAt c r).current_contents = [] ∧
        (m.tileAt c r).previous_contents = []
    · rw [if_pos hemp] at heq; exact absurd heq (by simp)
    · rw [if_neg hemp] at heq
      have hq : q = ((c, r), (m.tileAt c r).display_character,
          (m.tileAt c r).color) := by
        exact (Option.some_inj.mp heq).symm
      subst hq
      exact ⟨hc, hr, hemp, rfl, rfl⟩
  · rintro ⟨hc, hr, hemp, hch, hco⟩
    refine ⟨q.1.1, List.mem_range.mpr hc, ?_⟩
    rw [List.mem_filterMap]
    refine ⟨q.1.2, List.mem_range.mpr hr, ?_⟩
    rw [if_neg hemp, ← hch, ← hco]

/-- C10: the construction glyph `'#'` (on black) differs from the background
the per-tick clear resets cells to (`' '` on black); the construction glyph
is never emitted because the flush skips every cell whose occupant lists are
both empty, so a freshly constructed map produces no draw calls at all, a
cell that no frame ever writes is never drawn, and after a clear the glyph
of every cell not rewritten in the current frame is the space character. -/
theorem background_never_drawn {W H : Nat} (hW1 : 1 ≤ W) (hW2 : W ≤ 65535)
    (hH1 : 1 ≤ H) (hH2 : H ≤ 65535) (fs : List Frame) (fprev fcur : Frame)
    {x y : Nat} (hx : x < W) (hy : y < H) :
    (Map.new W H).tileAt x y = MapTile.initial ∧
      MapTile.initial.display_character = '#' ∧
      (∀ t : MapTile, t.clearTile.display_character = ' ') ∧
      ('#' : Char) ≠ ' ' ∧
      (Map.new W H).drawCalls = [] ∧
      (writersTo W H fcur x y = [] →
        (x, y) ∉ ((Map.new W H).applyWrites fcur).drawCalls.map Prod.fst) ∧
      (writersTo W H fprev x y = [] → writersTo W H fcur x y = [] →
        (x, y) ∉
          ((((Map.new W H).runFrames fs).runFrame fprev).applyWrites
            fcur).drawCalls.map Prod.fst) ∧
      (writersTo W H fcur x y = [] →
        (((((Map.new W H).runFrames fs).runFrame fprev).applyWrites
            fcur).tileAt x y).display_character = ' ') := by
  have hnewwf : WFMap (Map.new W H) := WFMap.new hW1 hW2 hH1 hH2
  have hprevtile := Map.newRunFrame_tileAt hW1 hW2 hH1 hH2 fs fprev hx hy
  have hprevwf : WFMap (((Map.new W H).runFrames fs).runFrame fprev) :=
    ((WFMap.new hW1 hW2 hH1 hH2).runFrames fs).runFrame fprev
  have hprevw : (((Map.new W H).runFrames fs).runFrame fprev).width = W := by
    rw [Map.runFrame_width, Map.runFrames_width]; rfl
  have hprevh : (((Map.new W H).runFrames fs).runFrame fprev).height = H := by
    rw [Map.runFrame_height, Map.runFrames_height]; rfl
  refine ⟨Map.tileAt_new hx hy, rfl, fun t => rfl, by decide, ?_, ?_, ?_, ?_⟩
  · rcases h : (Map.new W H).drawCalls with _ | ⟨q, rest⟩
    · rfl
    · exfalso
      have hq : q ∈ (Map.new W H).drawCalls := by rw [h]; simp
      rw [Map.mem_drawCalls] at hq
      rcases hq with ⟨hc, hr, hemp, -, -⟩
      have : (Map.new W H).tileAt q.1.1 q.1.2 = MapTile.initial :=
        Map.tileAt_new (by simpa [Map.new] using hc)
          (by simpa [Map.new] using hr)
      rw [this] at hemp
      exact hemp ⟨rfl, rfl⟩
  · intro hwr hmem
    rw [List.mem_map] at hmem
    rcases hmem with ⟨q, hq, hfst⟩
    rw [Map.mem_drawCalls] at hq
    rcases hq with ⟨hc, hr, hemp, -, -⟩
    rw [hfst] at hemp hc hr
    have hspec := Map.applyWrites_tileAt hnewwf fcur
      (x := x) (y := y) (by simpa [Map.new] using hx)
      (by simpa [Map.new] using hy)
    have hnw : ((Map.new W H).applyWrites fcur).tileAt x y =
        (Map.new W H).tileAt x y := hspec.2.2 (by simpa [Map.new] using hwr)
    rw [hnw, Map.tileAt_new hx hy] at hemp
    exact hemp ⟨rfl, rfl⟩
  · intro hwrp hwrc hmem
    rw [List.mem_map] at hmem
    rcases hmem with ⟨q, hq, hfst⟩
    rw [Map.mem_drawCalls] at hq
    rcases hq with ⟨hc, hr, hemp, -, -⟩
    rw [hfst] at hemp hc hr
    have hspec := Map.applyWrites_tileAt hprevwf fcur
      (x := x) (y := y) (by rw [hprevw]; exact hx) (by rw [hprevh]; exact hy)
    have hnw : ((((Map.new W H).runFrames fs).runFrame fprev).applyWrites
        fcur).tileAt x y =
        (((Map.new W H).runFrames fs).runFrame fprev).tileAt x y := by
      refine hspec.2.2 ?_
      rw [hprevw, hprevh]
      exact hwrc
    rw [hnw, hprevtile] at hemp
    exact hemp ⟨rfl, hwrp⟩
  · intro hwrc
    have hspec := Map.applyWrites_tileAt hprevwf fcur
      (x := x) (y := y) (by rw [hprevw]; exact hx) (by rw [hprevh]; exact hy)
    have hnw : ((((Map.new W H).runFrames fs).runFrame fprev).applyWrites
        fcur).tileAt x y =
        (((Map.new W H).runFrames fs).runFrame fprev).tileAt x y := by
      refine hspec.2.2 ?_
      rw [hprevw, hprevh]
      exact hwrc
    rw [hnw, hprevtile]

/-- Witness for `background_never_drawn`: on a 2×2 grid, with one frame
writing only cell `(0, 0)`, cell `(1, 1)` is never drawn at the next flush
and carries the space glyph after the clear. -/
theorem background_never_drawn_witness :
    (Map.new 2 2).drawCalls = [] ∧
      (1, 1) ∉
        ((((Map.new 2 2).runFrames []).runFrame
            [⟨(0, 0), '*', Color.blue, 1⟩]).applyWrites
          [⟨(0, 0), '*', Color.blue, 1⟩]).drawCalls.map Prod.fst ∧
      (((((Map.new 2 2).runFrames []).runFrame
            [⟨(0, 0), '*', Color.blue, 1⟩]).applyWrites
          [⟨(0, 0), '*', Color.blue, 1⟩]).tileAt 1 1).display_character
        = ' ' := by
  have h := background_never_drawn (W := 2) (H := 2) (by decide) (by decide)
    (by decide) (by decide) [] [⟨(0, 0), '*', Color.blue, 1⟩]
    [⟨(0, 0), '*', Color.blue, 1⟩] (x := 1) (y := 1) (by decide) (by decide)
  exact ⟨h.2.2.2.2.1,
    h.2.2.2.2.2.2.1 (by decide) (by decide),
    h.2.2.2.2.2.2.2 (by decide)⟩

/-- A type-erased boxed value (`Box<dyn Any>`): the dynamic type tag the box
was created with, plus an opaque payload. -/
structure AnyBox where
  typeKey : String
  payload : Int
  deriving DecidableEq, Repr

/-- Association-list lookup with replace-on-insert, modelling `HashMap`. -/
def alookup [DecidableEq κ] (k : κ) : List (κ × β) → Option β
  | [] => none
  | (k', v) :: rest => if k' = k then some v else alookup k rest

/-- Association-list insert, replacing any existing binding of the key,
modelling `HashMap::insert`. -/
def aset [DecidableEq κ] (k : κ) (v : β) : List (κ × β) → List (κ × β)
  | [] => [(k, v)]
  | (k', v') :: rest =>
      if k' = k then (k, v) :: rest else (k', v') :: aset k v rest

theorem alookup_aset_self [DecidableEq κ] (k : κ) (v : β)
    (l : List (κ × β)) : alookup k (aset k v l) = some v := by
  induction l with
  | nil => simp [aset, alookup]
  | cons p rest ih =>
    rcases p with ⟨pk, pv⟩
    by_cases h : pk = k
    · subst h; simp [aset, alookup]
    · simp [aset, alookup, h, ih]

theorem alookup_aset_ne [DecidableEq κ] {k k' : κ} (hne : k' ≠ k) (v : β)
    (l : List (κ × β)) : alookup k' (aset k v l) = alookup k' l := by
  have hkk : ¬k = k' := fun h => hne h.symm
  induction l with
  | nil => simp [aset, alookup, hkk]
  | cons p rest ih =>
    rcases p with ⟨pk, pv⟩
    by_cases h : pk = k
    · subst h
      simp [aset, alookup, hkk]
    · by_cases h2 : pk = k'
      · subst h2
        simp [aset, alookup, h]
      · simp [aset, alookup, h, h2, ih]

mutual
/-- A behavior (`Box<dyn Entity>`) embedded as scripts over the context
surface the engine hands to entities: an action list run by `start`, and one
action list per `update` call (a behavior mutates itself, so successive
updates may act differently; after the script is exhausted the updates are
no-ops, the trait's default). -/
inductive Behavior : Type where
  | mk : List Action → List (List Action) → Behavior

/-- Everything an entity hook can do to the world through the context it is
handed: spawn a behavior, enqueue a removal, write the grid, or set one of
its own attributes. -/
inductive Action : Type where
  | addEntity : Behavior → Action
  | removeEntity : Int → Action
  | mapWrite : Nat × Nat → Char → Color → Action
  | setComponent : String → Int → Action
end

/-- The actions a behavior's `start` runs. -/
def Behavior.startActs : Behavior → List Action
  | .mk s _ => s

/-- The action scripts of the behavior's successive `update` calls. -/
def Behavior.updateActs : Behavior → List (List Action)
  | .mk _ u => u

/-- The behavior after one `update` call consumed the head script
(the embedding of `&mut self`). -/
def Behavior.advance : Behavior → Behavior
  | .mk s u => .mk s u.tail

/-- One registry slot: `EntityData` in `lib.rs`. -/
structure EntityData where
  entity : Behavior
  id : Int
  started : Bool

/-- The world: `World` in `lib.rs` (the `ui` field, pure terminal I/O, is
not modelled; `draw` is modelled by `Map.drawCalls`). -/
structure World where
  entities : List EntityData
  removal_queue : List Int
  map : Map
  next_id : Int
  components : List (Int × List (String × AnyBox))

/-- Embedding of `World::new`. -/
def World.new (mapWidth mapHeight : Nat) : World :=
  { entities := []
    removal_queue := []
    map := Map.new mapWidth mapHeight
    next_id := 0
    components := [] }

/-- Embedding of `World::add_entity`: append an unstarted slot carrying the
next handle, register an empty attribute bag for it, bump the counter. -/
def World.add_entity (w : World) (b : Behavior) : World :=
  { w with
      entities := w.entities ++ [⟨b, w.next_id, false⟩]
      components := aset w.next_id [] w.components
      next_id := w.next_id + 1 }

/-- Embedding of `World::remove_entity`: push onto the pending queue. -/
def World.remove_entity (w : World) (id : Int) : World :=
  { w with removal_queue := w.removal_queue ++ [id] }

/-- Embedding of `World::get_component::<T>`: find the handle's bag, look up
the type key, downcast (which checks the box's dynamic type). -/
def World.get_component (w : World) (id : Int) (t : String) : Option Int :=
  match alookup id w.components with
  | some bag =>
      match alookup t bag with
      | some box => if box.typeKey = t then some box.payload else none
      | none => none
  | none => none

/-- Embedding of `World::set_component::<T>`: no-op when the handle has no
bag, otherwise insert-or-replace under the type key. -/
def World.set_component (w : World) (id : Int) (t : String) (v : Int) :
    World :=
  match alookup id w.components with
  | some bag => { w with components := aset id (aset t ⟨t, v⟩ bag) w.components }
  | none => w

/-- Embedding of `World::query_map`: for each live entity in order, test
whether the (unclamped!) tile contains its id.  The tile indexing happens
inside the loop, so with no live entities nothing is indexed; an
out-of-range position with a non-empty entity list panics in Rust, which
the embedding reports as `none`. -/
def World.query_map (w : World) (p : Nat × Nat) : Option (List EntityData) :=
  w.entities.foldl
    (fun acc e =>
      acc.bind fun l =>
        match w.map.tiles.get? p.1 with
        | none => none
        | some col =>
            match col.get? p.2 with
            | none => none
            | some t =>
                some (if t.previous_contents.contains e.id then l ++ [e]
                  else l))
    (some [])

/-- One scheduler event, the observation the temporal claims are about. -/
inductive Ev where
  | start : Int → Ev
  | update : Int → Ev
  deriving DecidableEq, Repr

/-- Apply one entity action to the world.  `selfId` is the handle the
scheduler passed to the running hook; entities write and tag under it. -/
def applyAction (selfId : Int) (w : World) : Action → World
  | .addEntity b => w.add_entity b
  | .removeEntity i => w.remove_entity i
  | .mapWrite p ch co =>
      { w with map := w.map.write p ch co selfId }
  | .setComponent t v => w.set_component selfId t v

/-- Run a hook's action list in order. -/
def applyActions (selfId : Int) (acts : List Action) (w : World) : World :=
  acts.foldl (applyAction selfId) w

/-- The loop body of `update_entities` for the popped slot `e`, with the
world `w` not containing `e` (Rust pops before calling the hooks): run
`start` if unstarted and mark started, then run `update`; return the
changed world, the slot to push back, and the emitted events. -/
def World.visit (w : World) (e : EntityData) :
    World × EntityData × List Ev :=
  let se :=
    if e.started then (w, e, ([] : List Ev))
    else
      (applyActions e.id e.entity.startActs w,
        { e with started := true }, [Ev.start e.id])
  let w2 := applyActions e.id (se.2.1.entity.updateActs.headD []) se.1
  (w2,
    { se.2.1 with entity := se.2.1.entity.advance },
    se.2.2 ++ [Ev.update e.id])

/-- The front-pop/back-push loop of `update_entities`, iterated `n` times
(`n` is the slot count captured before the loop; the vector can never be
empty while iterations remain, so the empty case is unreachable). -/
def World.runPass : Nat → World → World × List Ev
  | 0, w => (w, [])
  | n + 1, w =>
      match w.entities with
      | [] => (w, [])
      | e :: rest =>
          let v := World.visit { w with entities := rest } e
          let r := World.runPass n
            { v.1 with entities := v.1.entities ++ [v.2.1] }
          (r.1, v.2.2 ++ r.2)

/-- The removal-filter step at the start of `update_entities`: if the queue
is non-empty, retain only the slots whose handle is not pending, then clear
the queue. -/
def World.removalStep (w : World) : World :=
  if w.removal_queue.isEmpty then w
  else
    { w with
        entities :=
          w.entities.filter fun e => !(w.removal_queue.contains e.id)
        removal_queue := [] }

/-- The result of one tick: the new world, the scheduler events of the
pass, and the draw calls the flush emitted. -/
structure TickResult where
  world : World
  events : List Ev
  draws : List ((Nat × Nat) × Char × Color)

/-- Embedding of `update_entities`: removal filter, a pass over exactly the
captured slot count, flush (`draw`), then `Map::clear`.  The measured time
delta the Rust function receives is irrelevant to scheduling (behaviors in
the embedding already fold any delta dependence into their scripts). -/
def World.update_entities (w : World) : TickResult :=
  let w0 := w.removalStep
  let r := World.runPass w0.entities.length w0
  { world := { r.1 with map := r.1.map.clear }
    events := r.2
    draws := r.1.map.drawCalls }

/-- Run `k` ticks, collecting each tick's event list. -/
def World.runTicks : Nat → World → World × List (List Ev)
  | 0, w => (w, [])
  | k + 1, w =>
      let t := w.update_entities
      let r := World.runTicks k t.world
      (r.1, t.events :: r.2)

/-- The slots the pass of a tick will visit: the live slots after the
removal filter. -/
def World.filteredEntities (w : World) : List EntityData :=
  w.removalStep.entities

/-- The events one visit of slot `e` emits: `start` if the slot is
unstarted, then `update`. -/
def visitEvs (e : EntityData) : List Ev :=
  (if e.started then [] else [Ev.start e.id]) ++ [Ev.update e.id]

theorem World.set_component_entities (w : World) (id : Int) (t : String)
    (v : Int) : (w.set_component id t v).entities = w.entities := by
  unfold World.set_component
  cases alookup id w.components <;> rfl

theorem World.set_component_queue (w : World) (id : Int) (t : String)
    (v : Int) : (w.set_component id t v).removal_queue = w.removal_queue := by
  unfold World.set_component
  cases alookup id w.components <;> rfl

theorem World.set_component_next_id (w : World) (id : Int) (t : String)
    (v : Int) : (w.set_component id t v).next_id = w.next_id := by
  unfold World.set_component
  cases alookup id w.components <;> rfl

/-- How any entity hook can change the registry-relevant world state: the
slot vector only grows at the back with freshly numbered unstarted slots,
the removal queue only grows at the back, and the handle counter only moves
up (so new handles never collide with existing ones). -/
def WorldGrow (w w' : World) : Prop :=
  ∃ adds rq,
    w'.entities = w.entities ++ adds ∧
      w'.removal_queue = w.removal_queue ++ rq ∧
      w.next_id ≤ w'.next_id ∧
      (∀ a ∈ adds, a.started = false ∧ w.next_id ≤ a.id ∧
        a.id < w'.next_id) ∧
      (adds.map fun e => e.id).Nodup

theorem WorldGrow.rfl (w : World) : WorldGrow w w :=
  ⟨[], [], by simp, by simp, le_refl _, by simp, by simp⟩

theorem WorldGrow.trans {w1 w2 w3 : World} (h12 : WorldGrow w1 w2)
    (h23 : WorldGrow w2 w3) : WorldGrow w1 w3 := by
  obtain ⟨a1, r1, he1, hr1, hn1, hf1, hd1⟩ := h12
  obtain ⟨a2, r2, he2, hr2, hn2, hf2, hd2⟩ := h23
  refine ⟨a1 ++ a2, r1 ++ r2, ?_, ?_, le_trans hn1 hn2, ?_, ?_⟩
  · rw [he2, he1, List.append_assoc]
  · rw [hr2, hr1, List.append_assoc]
  · intro a ha
    rcases List.mem_append.mp ha with h | h
    · obtain ⟨hs, hlo, hhi⟩ := hf1 a h
      exact ⟨hs, hlo, lt_of_lt_of_le hhi hn2⟩
    · obtain ⟨hs, hlo, hhi⟩ := hf2 a h
      exact ⟨hs, le_trans hn1 hlo, hhi⟩
  · rw [List.map_append]
    refine List.Nodup.append hd1 hd2 ?_
    intro i hi1 hi2
    rcases List.mem_map.mp hi1 with ⟨a, ha, rfl⟩
    rcases List.mem_map.mp hi2 with ⟨b, hb, hab⟩
    have h1 := (hf1 a ha).2.2
    have h2 := (hf2 b hb).2.1
    omega

theorem applyAction_grow (selfId : Int) (w : World) (a : Action) :
    WorldGrow w (applyAction selfId w a) := by
  cases a with
  | addEntity b =>
      refine ⟨[⟨b, w.next_id, false⟩], [], Eq.refl _, by simp [applyAction,
        World.add_entity], ?_, ?_, by simp⟩
      · show w.next_id ≤ w.next_id + 1
        omega
      · intro x hx
        rcases List.mem_singleton.mp hx with rfl
        refine ⟨Eq.refl _, le_refl _, ?_⟩
        show w.next_id < w.next_id + 1
        omega
  | removeEntity i =>
      exact ⟨[], [i], by simp [applyAction, World.remove_entity],
        by simp [applyAction, World.remove_entity], le_refl _, by simp,
        by simp⟩
  | mapWrite p ch co =>
      exact ⟨[], [], by simp [applyAction], by simp [applyAction],
        le_refl _, by simp, by simp⟩
  | setComponent t v =>
      exact ⟨[], [], by simp [applyAction, World.set_component_entities],
        by simp [applyAction, World.set_component_queue],
        le_of_eq (World.set_component_next_id w selfId t v).symm,
        by simp, by simp⟩

theorem applyActions_grow (selfId : Int) (acts : List Action) (w : World) :
    WorldGrow w (applyActions selfId acts w) := by
  induction acts generalizing w with
  | nil => exact WorldGrow.rfl w
  | cons a rest ih =>
      exact (applyAction_grow selfId w a).trans (ih (applyAction selfId w a))

theorem World.visit_events (w : World) (e : EntityData) :
    (World.visit w e).2.2 = visitEvs e := by
  unfold World.visit visitEvs
  by_cases h : e.started <;> simp [h]

theorem World.visit_id (w : World) (e : EntityData) :
    (World.visit w e).2.1.id = e.id := by
  unfold World.visit
  by_cases h : e.started <;> simp [h]

theorem World.visit_started (w : World) (e : EntityData) :
    (World.visit w e).2.1.started = true := by
  unfold World.visit
  by_cases h : e.started <;> simp [h]

theorem World.visit_grow (w : World) (e : EntityData) :
    WorldGrow w (World.visit w e).1 := by
  unfold World.visit
  by_cases h : e.started
  · simp only [h, if_true]
    exact applyActions_grow _ _ _
  · simp only [h, if_false]
    exact (applyActions_grow e.id e.entity.startActs w).trans
      (applyActions_grow _ _ _)

theorem World.runPass_succ (n : Nat) (w : World) (e : EntityData)
    (rest : List EntityData) (h : w.entities = e :: rest) :
    World.runPass (n + 1) w =
      ((World.runPass n
          { (World.visit { w with entities := rest } e).1 with
              entities :=
                (World.visit { w with entities := rest } e).1.entities ++
                  [(World.visit { w with entities := rest } e).2.1] }).1,
        (World.visit { w with entities := rest } e).2.2 ++
          (World.runPass n
            { (World.visit { w with entities := rest } e).1 with
                entities :=
                  (World.visit { w with entities := rest } e).1.entities ++
                    [(World.visit { w with entities := rest } e).2.1] }).2) := by
  rcases w with ⟨ents, rq, mp, ni, comps⟩
  simp only at h
  subst h
  rfl

/-- The pass of one tick, started with fuel equal to the length of the
front `targets` segment of the slot vector, emits exactly the per-slot
events of the targets, in order: each target once (start if unstarted, then
update), and nothing for slots behind the targets or appended during the
pass. -/
theorem runPass_events (targets : List EntityData) :
    ∀ (w : World) (extra : List EntityData),
      w.entities = targets ++ extra →
      (World.runPass targets.length w).2 = targets.flatMap visitEvs := by
  induction targets with
  | nil => intro w extra h; rfl
  | cons t ts ih =>
    intro w extra h
    have hlen : (t :: ts).length = ts.length + 1 := rfl
    rw [hlen, World.runPass_succ ts.length w t (ts ++ extra)
      (by rw [h]; rfl)]
    obtain ⟨adds, rq, hents, -, -, -, -⟩ :=
      World.visit_grow { w with entities := ts ++ extra } t
    have hnext : ({ (World.visit { w with entities := ts ++ extra } t).1 with
        entities :=
          (World.visit { w with entities := ts ++ extra } t).1.entities ++
            [(World.visit { w with entities := ts ++ extra } t).2.1] } :
          World).entities =
        ts ++ (extra ++ adds ++
          [(World.visit { w with entities := ts ++ extra } t).2.1]) := by
      show (World.visit { w with entities := ts ++ extra } t).1.entities ++
          [(World.visit { w with entities := ts ++ extra } t).2.1] = _
      rw [hents]
      show (ts ++ extra) ++ adds ++ _ = _
      simp [List.append_assoc]
    rw [ih _ _ hnext, World.visit_events]
    rw [List.flatMap_cons]

/-- The handles of a slot list, in order. -/
def entityIds (l : List EntityData) : List Int := l.map fun e => e.id

theorem nodup_shuffle {a : Int} {A B C : List Int}
    (h1 : (a :: (A ++ B)).Nodup) (h2 : C.Nodup)
    (hdisj : ∀ c ∈ C, ∀ x ∈ a :: (A ++ B), x < c) :
    (A ++ (B ++ C ++ [a])).Nodup := by
  have hperm : (A ++ (B ++ C ++ [a])).Perm ((a :: (A ++ B)) ++ C) := by
    rw [List.perm_iff_count]
    intro b
    by_cases hba : b = a
    · simp [List.count_append, List.count_cons, hba]
      try omega
    · simp [List.count_append, List.count_cons, hba]
      try omega
  rw [hperm.nodup_iff]
  refine List.Nodup.append h1 h2 ?_
  intro x hx hxC
  exact absurd rfl (ne_of_lt (hdisj x hxC x hx))

/-- State of the slot vector after a full pass: the untouched tail `extra`
stays in front; behind it every slot is either a processed target (same
handle, now started) or a freshly added unstarted slot with a new handle;
every target survives as a processed slot; the handle counter only grew;
the removal queue only grew; and handle distinctness and the handle bound
are preserved. -/
theorem runPass_state (targets : List EntityData) :
    ∀ (w : World) (extra : List EntityData),
      w.entities = targets ++ extra →
      (entityIds (targets ++ extra)).Nodup →
      (∀ e ∈ targets ++ extra, e.id < w.next_id) →
      ∃ rest,
        (World.runPass targets.length w).1.entities = extra ++ rest ∧
          (∀ e ∈ rest,
            (∃ t ∈ targets, e.id = t.id ∧ e.started = true) ∨
              (w.next_id ≤ e.id ∧ e.started = false)) ∧
          (∀ t ∈ targets, ∃ e ∈ rest, e.id = t.id ∧ e.started = true) ∧
          w.next_id ≤ (World.runPass targets.length w).1.next_id ∧
          (∃ rq, (World.runPass targets.length w).1.removal_queue =
            w.removal_queue ++ rq) ∧
          (entityIds (extra ++ rest)).Nodup ∧
          (∀ e ∈ extra ++ rest,
            e.id < (World.runPass targets.length w).1.next_id) := by
  induction targets with
  | nil =>
    intro w extra h hnd hbd
    refine ⟨[], by simpa using h.symm ▸ rfl, by simp, by simp, le_refl _,
      ⟨[], by simp [World.runPass]⟩, ?_, ?_⟩
    · simpa using hnd
    · simpa using hbd
  | cons t ts ih =>
    intro w extra h hnd hbd
    have hw : w.entities = t :: (ts ++ extra) := by simpa using h
    obtain ⟨adds, rq, hents, hrq, hni, hfresh, hndadds⟩ :=
      World.visit_grow { w with entities := ts ++ extra } t
    have hvid : (World.visit { w with entities := ts ++ extra } t).2.1.id =
        t.id := World.visit_id _ _
    have hvst :
        (World.visit { w with entities := ts ++ extra } t).2.1.started =
          true := World.visit_started _ _
    have hw2ents :
        ({ (World.visit { w with entities := ts ++ extra } t).1 with
            entities :=
              (World.visit { w with entities := ts ++ extra } t).1.entities
                ++ [(World.visit { w with entities := ts ++ extra } t).2.1] }
              : World).entities =
          ts ++ (extra ++ adds ++
            [(World.visit { w with entities := ts ++ extra } t).2.1]) := by
      show (World.visit { w with entities := ts ++ extra } t).1.entities ++
          [(World.visit { w with entities := ts ++ extra } t).2.1] = _
      rw [hents]
      show (ts ++ extra) ++ adds ++ _ = _
      simp [List.append_assoc]
    have hbd' : ∀ e ∈ (t :: ts) ++ extra, e.id < w.next_id := hbd
    have hadds_lo : ∀ a ∈ adds, w.next_id ≤ a.id := fun a ha =>
      (hfresh a ha).2.1
    have hadds_hi : ∀ a ∈ adds,
        a.id < (World.visit { w with entities := ts ++ extra } t).1.next_id :=
      fun a ha => (hfresh a ha).2.2
    have hadds_st : ∀ a ∈ adds, a.started = false := fun a ha =>
      (hfresh a ha).1
    have hnd2 : (entityIds (ts ++ (extra ++ adds ++
        [(World.visit { w with entities := ts ++ extra } t).2.1]))).Nodup := by
      have hnd1 : ((t.id : Int) ::
          (entityIds ts ++ entityIds extra)).Nodup := by
        simpa [entityIds] using hnd
      have hnds : (entityIds adds).Nodup := hndadds
      have hshuffle := nodup_shuffle (a := t.id) (A := entityIds ts)
        (B := entityIds extra) (C := entityIds adds) hnd1 hnds ?_
      · simpa [entityIds, hvid] using hshuffle
      · intro c hc x hx
        rcases List.mem_map.mp hc with ⟨ac, hac, rfl⟩
        have hclo := hadds_lo ac hac
        rcases List.mem_cons.mp hx with rfl | hx
        · have := hbd' t (by simp)
          omega
        · rcases List.mem_append.mp hx with hx | hx
          · rcases List.mem_map.mp hx with ⟨ex, hex, rfl⟩
            have := hbd' ex (by simp [hex])
            omega
          · rcases List.mem_map.mp hx with ⟨ex, hex, rfl⟩
            have := hbd' ex (by simp [hex])
            omega
    have hbd2 : ∀ e ∈ ts ++ (extra ++ adds ++
        [(World.visit { w with entities := ts ++ extra } t).2.1]),
        e.id < ({ (World.visit { w with entities := ts ++ extra } t).1 with
            entities :=
              (World.visit { w with entities := ts ++ extra } t).1.entities
                ++ [(World.visit { w with entities := ts ++ extra } t).2.1] }
              : World).next_id := by
      intro e he
      show e.id < (World.visit { w with entities := ts ++ extra } t).1.next_id
      have hni' : w.next_id ≤
          (World.visit { w with entities := ts ++ extra } t).1.next_id := hni
      rcases List.mem_append.mp he with he | he
      · have := hbd' e (by simp [he])
        omega
      · rcases List.mem_append.mp he with he | he
        · rcases List.mem_append.mp he with he | he
          · have := hbd' e (by simp [he])
            omega
          · exact hadds_hi e he
        · rcases List.mem_singleton.mp he with rfl
          rw [hvid]
          have := hbd' t (by simp)
          omega
    obtain ⟨rest', hents', hb', hc', hni', ⟨rq', hrq'⟩, hnd', hbd''⟩ :=
      ih _ _ hw2ents hnd2 hbd2
    rw [show (t :: ts).length = ts.length + 1 from rfl,
      World.runPass_succ ts.length w t (ts ++ extra) hw]
    refine ⟨adds ++
      [(World.visit { w with entities := ts ++ extra } t).2.1] ++ rest',
      ?_, ?_, ?_, ?_, ?_, ?_, ?_⟩
    · show (World.runPass ts.length _).1.entities = _
      rw [hents']
      simp [List.append_assoc]
    · intro e he
      rcases List.mem_append.mp he with he | he
      · rcases List.mem_append.mp he with he | he
        · exact Or.inr ⟨hadds_lo e he, hadds_st e he⟩
        · rcases List.mem_singleton.mp he with rfl
          exact Or.inl ⟨t, by simp, hvid, hvst⟩
      · rcases hb' e he with ⟨t', ht', he1, he2⟩ | ⟨hlo, hst⟩
        · exact Or.inl ⟨t', by simp [ht'], he1, he2⟩
        · refine Or.inr ⟨?_, hst⟩
          have : w.next_id ≤ ({ (World.visit
              { w with entities := ts ++ extra } t).1 with
              entities := (World.visit
                { w with entities := ts ++ extra } t).1.entities ++
                  [(World.visit { w with entities := ts ++ extra } t).2.1] }
                : World).next_id := hni
          omega
    · intro t' ht'
      rcases List.mem_cons.mp ht' with rfl | ht'
      · exact ⟨(World.visit { w with entities := ts ++ extra } t').2.1,
          by simp, hvid, hvst⟩
      · obtain ⟨e, he, he1, he2⟩ := hc' t' ht'
        exact ⟨e, by simp [he], he1, he2⟩
    · show w.next_id ≤ (World.runPass ts.length _).1.next_id
      have : w.next_id ≤ ({ (World.visit
          { w with entities := ts ++ extra } t).1 with
          entities := (World.visit
            { w with entities := ts ++ extra } t).1.entities ++
              [(World.visit { w with entities := ts ++ extra } t).2.1] }
            : World).next_id := hni
      omega
    · refine ⟨rq ++ rq', ?_⟩
      show (World.runPass ts.length _).1.removal_queue = _
      rw [hrq']
      show ((World.visit { w with entities := ts ++ extra } t).1).removal_queue
          ++ rq' = _
      rw [hrq]
      show (w.removal_queue ++ rq) ++ rq' = _
      simp [List.append_assoc]
    · simpa [List.append_assoc] using hnd'
    · intro e he
      refine hbd'' e ?_
      simpa [List.append_assoc] using he

/-- Registry sanity: live handles are pairwise distinct and below the
handle counter.  `World::new` establishes it and (as proved below) every
tick preserves it. -/
def WFWorld (w : World) : Prop :=
  (entityIds w.entities).Nodup ∧ ∀ e ∈ w.entities, e.id < w.next_id

theorem contains_eq_decide_mem (l : List Int) (a : Int) :
    l.contains a = decide (a ∈ l) := by
  induction l with
  | nil => rfl
  | cons x xs ih =>
    by_cases hxa : x = a
    · subst hxa
      simp
    · simp [List.contains_cons, ih, hxa, Ne.symm hxa]

theorem World.removalStep_entities (w : World) :
    w.removalStep.entities =
      w.entities.filter fun e => !(w.removal_queue.contains e.id) := by
  unfold World.removalStep
  by_cases h : w.removal_queue.isEmpty
  · rw [if_pos h]
    have hq : w.removal_queue = [] := List.isEmpty_iff.mp h
    symm
    apply List.filter_eq_self.mpr
    intro e _
    rw [hq]
    rfl
  · rw [if_neg h]

theorem World.removalStep_queue (w : World) :
    w.removalStep.removal_queue = [] := by
  unfold World.removalStep
  by_cases h : w.removal_queue.isEmpty
  · rw [if_pos h]
    exact List.isEmpty_iff.mp h
  · rw [if_neg h]

theorem World.removalStep_next_id (w : World) :
    w.removalStep.next_id = w.next_id := by
  unfold World.removalStep
  by_cases h : w.removal_queue.isEmpty
  · rw [if_pos h]
  · rw [if_neg h]

theorem World.removalStep_components (w : World) :
    w.removalStep.components = w.components := by
  unfold World.removalStep
  by_cases h : w.removal_queue.isEmpty
  · rw [if_pos h]
  · rw [if_neg h]

theorem World.removalStep_map (w : World) :
    w.removalStep.map = w.map := by
  unfold World.removalStep
  by_cases h : w.removal_queue.isEmpty
  · rw [if_pos h]
  · rw [if_neg h]

theorem World.filteredEntities_eq (w : World) :
    w.filteredEntities =
      w.entities.filter fun e => !(w.removal_queue.contains e.id) :=
  World.removalStep_entities w

theorem filteredEntities_sublist (w : World) :
    w.filteredEntities.Sublist w.entities := by
  rw [World.filteredEntities_eq]
  exact List.filter_sublist _

theorem mem_filteredEntities (w : World) (e : EntityData) :
    e ∈ w.filteredEntities ↔ e ∈ w.entities ∧ e.id ∉ w.removal_queue := by
  rw [World.filteredEntities_eq, List.mem_filter]
  constructor
  · rintro ⟨h1, h2⟩
    refine ⟨h1, ?_⟩
    rw [contains_eq_decide_mem] at h2
    simpa using h2
  · rintro ⟨h1, h2⟩
    refine ⟨h1, ?_⟩
    rw [contains_eq_decide_mem]
    simpa using h2

/-- The events of one tick are exactly the per-slot events of the live
slots that survive the removal filter, in slot order. -/
theorem World.update_events (w : World) :
    (w.update_entities).events = w.filteredEntities.flatMap visitEvs := by
  show (World.runPass w.removalStep.entities.length w.removalStep).2 = _
  exact runPass_events w.removalStep.entities w.removalStep [] (by simp)

theorem mem_visitEvs (t : EntityData) (ev : Ev) (h : ev ∈ visitEvs t) :
    ev = Ev.start t.id ∨ ev = Ev.update t.id := by
  unfold visitEvs at h
  by_cases hs : t.started
  · rw [if_pos hs] at h
    simp at h
    exact Or.inr h
  · rw [if_neg hs] at h
    simp at h
    rcases h with h | h
    · exact Or.inl h
    · exact Or.inr h

theorem update_mem_visitEvs (t : EntityData) : Ev.update t.id ∈ visitEvs t := by
  unfold visitEvs
  by_cases hs : t.started <;> simp [hs]

/-- Tick-level packaging of `runPass_state`: what one call of
`update_entities` does to the slot vector. -/
theorem World.update_state (w : World) (hwf : WFWorld w) :
    (∀ e ∈ (w.update_entities).world.entities,
        (∃ t ∈ w.filteredEntities, e.id = t.id ∧ e.started = true) ∨
          (w.next_id ≤ e.id ∧ e.started = false)) ∧
      (∀ t ∈ w.filteredEntities,
        ∃ e ∈ (w.update_entities).world.entities,
          e.id = t.id ∧ e.started = true) ∧
      w.next_id ≤ (w.update_entities).world.next_id ∧
      WFWorld (w.update_entities).world := by
  have hnd0 : (entityIds w.removalStep.entities).Nodup := by
    rw [World.removalStep_entities]
    exact ((List.filter_sublist _).map _).nodup hwf.1
  have hbd0 : ∀ e ∈ w.removalStep.entities, e.id < w.removalStep.next_id := by
    intro e he
    rw [World.removalStep_next_id]
    rw [World.removalStep_entities] at he
    exact hwf.2 e (List.mem_of_mem_filter he)
  obtain ⟨rest, hrest, hb, hc, hni, -, hnd, hbd⟩ :=
    runPass_state w.removalStep.entities w.removalStep []
      (by simp) (by simpa using hnd0) (by simpa using hbd0)
  have hents : (w.update_entities).world.entities =
      (World.runPass w.removalStep.entities.length w.removalStep).1.entities :=
    rfl
  have hnid : (w.update_entities).world.next_id =
      (World.runPass w.removalStep.entities.length w.removalStep).1.next_id :=
    rfl
  rw [List.nil_append] at hrest
  refine ⟨?_, ?_, ?_, ?_, ?_⟩
  · intro e he
    rw [hents, hrest] at he
    rcases hb e he with ⟨t, ht, h1, h2⟩ | ⟨hlo, hst⟩
    · exact Or.inl ⟨t, ht, h1, h2⟩
    · rw [World.removalStep_next_id] at hlo
      exact Or.inr ⟨hlo, hst⟩
  · intro t ht
    obtain ⟨e, he, h1, h2⟩ := hc t ht
    exact ⟨e, by rw [hents, hrest]; exact he, h1, h2⟩
  · rw [hnid]
    rw [World.removalStep_next_id] at hni
    exact hni
  · rw [hents, hrest]
    simpa using hnd
  · intro e he
    rw [hents, hrest] at he
    rw [hnid]
    exact hbd e (by simpa using he)

/-- C2: the tick visits exactly the slots live after the removal filter,
each exactly once and in order — `start` first when the slot is unstarted,
then `update` (the event-list equality); an entity added during the tick
(precisely: an unstarted slot of the post-tick world) receives no event
during this tick, and, unless its removal was also requested, receives its
`update` in the next tick. -/
theorem tick_visits_exactly_live_slots (w : World) (hwf : WFWorld w) :
    (w.update_entities).events = w.filteredEntities.flatMap visitEvs ∧
      ∀ e ∈ (w.update_entities).world.entities, e.started = false →
        (∀ ev ∈ (w.update_entities).events,
          ev ≠ Ev.start e.id ∧ ev ≠ Ev.update e.id) ∧
        (e.id ∉ (w.update_entities).world.removal_queue →
          Ev.update e.id ∈
            ((w.update_entities).world.update_entities).events) := by
  obtain ⟨hb, hc, hni, hwf'⟩ := World.update_state w hwf
  refine ⟨World.update_events w, ?_⟩
  intro e he hst
  have hefresh : w.next_id ≤ e.id := by
    rcases hb e he with ⟨t, ht, h1, h2⟩ | ⟨hlo, -⟩
    · rw [h2] at hst
      exact absurd hst (by simp)
    · exact hlo
  constructor
  · intro ev hev
    rw [World.update_events] at hev
    rcases List.mem_flatMap.mp hev with ⟨t, ht, hevt⟩
    have htid : t.id < w.next_id := by
      have : t ∈ w.entities := ((mem_filteredEntities w t).mp ht).1
      exact hwf.2 t this
    have hne : t.id ≠ e.id := by omega
    rcases mem_visitEvs t ev hevt with rfl | rfl
    · exact ⟨by simpa using hne, by simp⟩
    · exact ⟨by simp, by simpa using hne⟩
  · intro hq
    rw [World.update_events]
    refine List.mem_flatMap.mpr ⟨e, ?_, update_mem_visitEvs e⟩
    exact (mem_filteredEntities _ e).mpr ⟨he, hq⟩

/-- A behavior with the trait's default no-op hooks (like `Wall` minus its
draw call). -/
def bTriv : Behavior := Behavior.mk [] []

/-- A behavior that spawns one trivial entity during its first update
(like `Ship::shoot` spawning a `Bullet`). -/
def bAdder : Behavior := Behavior.mk [] [[Action.addEntity bTriv]]

/-- A behavior that requests removal of handle 1 during its first update
(handle 1 is itself in the witness world below, like a `Bullet` leaving the
screen). -/
def bSelfRemove : Behavior := Behavior.mk [] [[Action.removeEntity 1]]

/-- Witness world for C2: one entity that adds another mid-tick. -/
def wC2 : World := (World.new 1 1).add_entity bAdder

/-- Witness for `tick_visits_exactly_live_slots`: in `wC2`, tick 1 visits
only slot 0 (start then update); the entity it added (handle 1) gets its
first update in tick 2. -/
theorem tick_visits_witness :
    (wC2.update_entities).events = [Ev.start 0, Ev.update 0] ∧
      Ev.update 1 ∈ ((wC2.update_entities).world.update_entities).events := by
  have h := tick_visits_exactly_live_slots wC2 ⟨by decide, by decide⟩
  refine ⟨h.1.trans (by decide), ?_⟩
  exact (h.2 ⟨bTriv, 1, false⟩ (List.Mem.head _) rfl).2 (by decide)

/-- C3: `remove_entity` during a tick only appends to the pending queue
(the slot vector is untouched), so every slot that survived the tick's
removal filter still receives its update that tick even if it requests its
own removal; a queued handle is dropped by (and only by) the filter at the
start of the next processed tick; queueing the same handle again, or a
handle owned by no live slot, does not change what the filter produces. -/
theorem removal_deferred (w : World) (h : Int) :
    (∀ i : Int, applyAction i w (Action.removeEntity h) =
        { w with removal_queue := w.removal_queue ++ [h] }) ∧
      (∀ e ∈ w.filteredEntities,
        Ev.update e.id ∈ (w.update_entities).events) ∧
      (h ∈ w.removal_queue → ∀ e ∈ w.filteredEntities, e.id ≠ h) ∧
      ((w.remove_entity h).remove_entity h).filteredEntities =
        (w.remove_entity h).filteredEntities ∧
      ((∀ e ∈ w.entities, e.id ≠ h) →
        (w.remove_entity h).filteredEntities = w.filteredEntities) := by
  refine ⟨fun i => rfl, ?_, ?_, ?_, ?_⟩
  · intro e he
    rw [World.update_events]
    exact List.mem_flatMap.mpr ⟨e, he, update_mem_visitEvs e⟩
  · intro hq e he hid
    have := ((mem_filteredEntities w e).mp he).2
    rw [hid] at this
    exact this hq
  · rw [World.filteredEntities_eq, World.filteredEntities_eq]
    show List.filter _ w.entities = List.filter _ w.entities
    apply List.filter_congr
    intro x _
    apply congrArg Bool.not
    rw [contains_eq_decide_mem, contains_eq_decide_mem]
    apply decide_eq_decide.mpr
    show x.id ∈ (w.removal_queue ++ [h]) ++ [h] ↔
      x.id ∈ w.removal_queue ++ [h]
    simp only [List.mem_append, List.mem_singleton]
    tauto
  · intro hno
    rw [World.filteredEntities_eq, World.filteredEntities_eq]
    show List.filter _ w.entities = List.filter _ w.entities
    apply List.filter_congr
    intro x hx
    apply congrArg Bool.not
    rw [contains_eq_decide_mem, contains_eq_decide_mem]
    apply decide_eq_decide.mpr
    show x.id ∈ w.removal_queue ++ [h] ↔ x.id ∈ w.removal_queue
    simp only [List.mem_append, List.mem_singleton]
    have := hno x hx
    tauto

/-- Witness world for C3: slot 0 is already queued for removal when the
tick starts; slot 1 requests its own removal during its update. -/
def wC3 : World :=
  (((World.new 1 1).add_entity bTriv).add_entity bSelfRemove).remove_entity 0

/-- Witness for `removal_deferred`: handle 0 is pending, so the filter
drops slot 0 from the pass; slot 1, which requests its own removal
mid-update, still receives its update this tick. -/
theorem removal_deferred_witness :
    (0 : Int) ∈ wC3.removal_queue ∧
      (∀ e ∈ wC3.filteredEntities, e.id ≠ 0) ∧
      Ev.update 1 ∈ (wC3.update_entities).events := by
  have h := removal_deferred wC3 0
  exact ⟨by decide, h.2.2.1 (by decide),
    h.2.1 ⟨bSelfRemove, 1, false⟩ (List.Mem.head _)⟩

/-- The handle an update event carries. -/
def updateId : Ev → Option Int
  | .update i => some i
  | .start _ => none

/-- C5 as amended: each tick's update events are exactly the handles of the
post-filter slot vector, in vector order — the rotation preserves the
relative order of the slots not yet processed within the pass.  The vector
order is *not* in general insertion order: an entity added mid-pass is
inserted before its adder's push-back position (see `visit_order_cex`). -/
theorem visit_order_vector (w : World) :
    (w.update_entities).events.filterMap updateId =
      entityIds w.filteredEntities := by
  rw [World.update_events]
  generalize w.filteredEntities = ts
  induction ts with
  | nil => rfl
  | cons t ts ih =>
    rw [List.flatMap_cons, List.filterMap_append, ih]
    show List.filterMap updateId (visitEvs t) ++ _ = _
    unfold visitEvs
    by_cases hs : t.started <;>
      simp [hs, updateId, entityIds, List.filterMap_cons]

/-- C5 counterexample: world `wC5` holds entities 0 (which adds entity 2 on
its first update) and 1.  Tick 2 visits the slots in order 2, 0, 1 — the
mid-pass-added entity 2 is visited before the older surviving entities 0
and 1, so visits do not follow insertion order (oldest surviving first),
which would be the ascending handle order 0, 1, 2. -/
def wC5 : World := ((World.new 1 1).add_entity bAdder).add_entity bTriv

theorem visit_order_cex :
    (((wC5.update_entities).world.update_entities).events.filterMap
        updateId) = [2, 0, 1] ∧
      ¬List.Sorted (· ≤ ·)
        (((wC5.update_entities).world.update_entities).events.filterMap
          updateId) := by
  constructor
  · decide
  · intro hs
    have h1 : ((((wC5.update_entities).world.update_entities).events.filterMap
        updateId) : List Int) = [2, 0, 1] := by decide
    rw [h1] at hs
    have := List.rel_of_sorted_cons hs 0 (by simp)
    omega

theorem get?_eq_some_getD (l : List α) (x : Nat) (hx : x < l.length)
    (d : α) : l.get? x = some (l.getD x d) := by
  induction l generalizing x with
  | nil => simp at hx
  | cons a as ih =>
    cases x with
    | zero => simp
    | succ k =>
      have hk : k < as.length := by simpa using hx
      simpa using ih k hk

theorem foldl_query (tile : MapTile) (es : List EntityData) :
    ∀ acc : List EntityData,
      es.foldl
        (fun acc e =>
          acc.bind fun l =>
            some (if tile.previous_contents.contains e.id then l ++ [e]
              else l))
        (some acc) =
      some (acc ++
        es.filter fun e => tile.previous_contents.contains e.id) := by
  induction es with
  | nil => intro acc; simp
  | cons e es ih =>
    intro acc
    show es.foldl _
        (some (if tile.previous_contents.contains e.id then acc ++ [e]
          else acc)) = _
    cases hc : tile.previous_contents.contains e.id
    · have hstep : (if (false : Bool) then acc ++ [e] else acc) = acc := by
        simp
      rw [hstep, ih acc, List.filter_cons, hc]
      simp
    · have hstep : (if (true : Bool) then acc ++ [e] else acc) =
          acc ++ [e] := by simp
      rw [hstep, ih (acc ++ [e]), List.filter_cons, hc]
      simp

theorem foldl_query_none_aux (es : List EntityData) :
    ∀ x : Option (List EntityData), x = none →
      es.foldl (fun acc _ =>
        acc.bind fun _ => (none : Option (List EntityData))) x = none := by
  induction es with
  | nil => intro x hx; exact hx
  | cons e es ih =>
    intro x hx
    show es.foldl _ (x.bind fun _ => none) = none
    exact ih _ (by cases x <;> rfl)

theorem foldl_query_none (es : List EntityData) (hne : es ≠ []) :
    ∀ x : Option (List EntityData),
      es.foldl (fun acc _ =>
        acc.bind fun _ => (none : Option (List EntityData))) x = none := by
  cases es with
  | nil => exact absurd rfl hne
  | cons e es =>
    intro x
    show es.foldl _ (x.bind fun _ => none) = none
    exact foldl_query_none_aux es _ (by cases x <;> rfl)

/-- C4 counterexample: in the world reached by one tick of two live
entities (handle 0 writing cell `(0, 0)` once, handle 1 writing it twice),
the cell's `previous_occupants` list is `[0, 1, 1]`, but `query_map`
returns the live entities whose handle the list contains — handles
`[0, 1]`, in live-slot order, without the duplicate.  And `query_map` does
not clamp: querying `(5, 0)` on the 2×1 grid faults (returns no value)
instead of being silently corrected the way `write` corrects it. -/
def bWriteOnce : Behavior :=
  Behavior.mk [] [[Action.mapWrite (0, 0) '#' Color.white]]

def bWriteTwice : Behavior :=
  Behavior.mk [] [[Action.mapWrite (0, 0) '#' Color.white,
    Action.mapWrite (0, 0) '#' Color.white]]

def wC4 : World :=
  ((((World.new 2 1).add_entity bWriteOnce).add_entity
    bWriteTwice).update_entities).world

theorem query_map_cex :
    ((wC4.map.tileAt 0 0).previous_contents = [0, 1, 1]) ∧
      ((wC4.query_map (0, 0)).map (fun l => entityIds l) = some [0, 1]) ∧
      (some [0, 1] ≠ some ([0, 1, 1] : List Int)) ∧
      ((wC4.query_map (5, 0)).isNone = true) := by
  decide

/-- C4 as amended: `query_map` performs no clamping — with at least one
live entity, a position outside the tile array faults instead of being
corrected (with no live entities the tile is never indexed and the result
is empty) — and for an in-range position it does not return the cell's
`previous_occupants` list itself: it returns the live entities whose handle
that list contains, in live-slot order, each at most once when live handles
are distinct, and never a handle of a removed slot. -/
theorem query_map_spec (w : World) (hm : WFMap w.map) (p : Nat × Nat) :
    (p.1 < w.map.width → p.2 < w.map.height →
        w.query_map p = some (w.entities.filter fun e =>
          (w.map.tileAt p.1 p.2).previous_contents.contains e.id)) ∧
      (w.entities = [] → w.query_map p = some []) ∧
      (w.entities ≠ [] → w.map.width ≤ p.1 ∨ w.map.height ≤ p.2 →
        w.query_map p = none) ∧
      ((entityIds w.entities).Nodup →
        (entityIds (w.entities.filter fun e =>
          (w.map.tileAt p.1 p.2).previous_contents.contains e.id)).Nodup) ∧
      (∀ e ∈ w.entities.filter fun e =>
          (w.map.tileAt p.1 p.2).previous_contents.contains e.id,
        e ∈ w.entities) := by
  refine ⟨?_, ?_, ?_, ?_, ?_⟩
  · intro h1 h2
    have hcol : w.map.tiles.get? p.1 = some (w.map.tiles.getD p.1 []) :=
      get?_eq_some_getD _ _ (by rw [hm.cols]; exact h1) _
    have hlen : (w.map.tiles.getD p.1 []).length = w.map.height :=
      hm.rows _ (getD_mem _ _ (by rw [hm.cols]; exact h1) _)
    have htile : (w.map.tiles.getD p.1 []).get? p.2 =
        some ((w.map.tiles.getD p.1 []).getD p.2 MapTile.initial) :=
      get?_eq_some_getD _ _ (by rw [hlen]; exact h2) _
    unfold World.query_map
    simp only [hcol, htile]
    exact foldl_query _ _ []
  · intro h
    unfold World.query_map
    rw [h]
    rfl
  · intro hne hout
    unfold World.query_map
    rcases hout with hout | hout
    · have hcol : w.map.tiles.get? p.1 = none := by
        apply List.get?_eq_none.mpr
        rw [hm.cols]
        exact hout
      simp only [hcol]
      exact foldl_query_none _ hne _
    · by_cases h1 : p.1 < w.map.width
      · have hcol : w.map.tiles.get? p.1 = some (w.map.tiles.getD p.1 []) :=
          get?_eq_some_getD _ _ (by rw [hm.cols]; exact h1) _
        have hlen : (w.map.tiles.getD p.1 []).length = w.map.height :=
          hm.rows _ (getD_mem _ _ (by rw [hm.cols]; exact h1) _)
        have htile : (w.map.tiles.getD p.1 []).get? p.2 = none := by
          apply List.get?_eq_none.mpr
          rw [hlen]
          exact hout
        simp only [hcol, htile]
        exact foldl_query_none _ hne _
      · have hcol : w.map.tiles.get? p.1 = none := by
          apply List.get?_eq_none.mpr
          rw [hm.cols]
          omega
        simp only [hcol]
        exact foldl_query_none _ hne _
  · intro hnd
    exact ((List.filter_sublist _).map _).nodup hnd
  · intro e he
    exact List.mem_of_mem_filter he

/-- Witness for `query_map_spec` on the concrete post-tick world of the
counterexample: the in-range query returns handles `[0, 1]` and the
out-of-range query faults. -/
theorem query_map_spec_witness :
    (wC4.query_map (0, 0)).map (fun l => entityIds l) = some [0, 1] ∧
      wC4.query_map (5, 0) = none := by
  have hwf : WFMap wC4.map :=
    ⟨by decide, by decide, by decide, by decide, by decide, by decide⟩
  have h1 := (query_map_spec wC4 hwf (0, 0)).1 (by decide) (by decide)
  have h2 := (query_map_spec wC4 hwf (5, 0)).2.2.1
    (List.cons_ne_nil _ _) (Or.inl (by decide))
  refine ⟨?_, h2⟩
  rw [h1]
  decide

/-- C6 counterexample: after `remove_entity 0` takes effect at the frame
boundary (the slot list is empty), the attribute bag of handle 0 is *not*
disposed: `set_component` still stores a value for it and `get_component`
still returns that value, where the claim requires a silent drop and
absence. -/
def wC6 : World :=
  ((((World.new 1 1).add_entity bTriv).remove_entity 0).update_entities).world

theorem components_persist_cex :
    entityIds wC6.entities = [] ∧
      (wC6.set_component 0 "Health" 7).get_component 0 "Health" = some 7 := by
  decide

/-- C6 as amended: the removal applied at the frame boundary drops only the
registry slot — the attribute bag of the removed handle is retained, so
`set_attribute` on a removed handle still stores and `get_attribute` still
retrieves; only a handle that was never registered gets the silent-drop /
absence behavior. -/
theorem components_persist (w : World) (h : Int) (t : String) (v : Int) :
    w.removalStep.components = w.components ∧
      ((∃ bag, alookup h w.components = some bag) →
        (w.set_component h t v).get_component h t = some v) ∧
      (alookup h w.components = none →
        w.set_component h t v = w ∧ w.get_component h t = none) := by
  refine ⟨World.removalStep_components w, ?_, ?_⟩
  · rintro ⟨bag, hbag⟩
    unfold World.set_component
    simp only [hbag]
    unfold World.get_component
    simp only [alookup_aset_self]
    simp
  · intro hnone
    constructor
    · unfold World.set_component
      simp only [hnone]
    · unfold World.get_component
      simp only [hnone]

/-- Witness for `components_persist`: handle 0 was removed at the boundary
of `wC6`, yet setting then getting its attribute succeeds; handle 5 was
never registered, and gets the no-op and absence. -/
theorem components_persist_witness :
    (wC6.set_component 0 "Health" 7).get_component 0 "Health" = some 7 ∧
      wC6.set_component 5 "Health" 7 = wC6 ∧
      wC6.get_component 5 "Health" = none := by
  have h0 := (components_persist wC6 0 "Health" 7).2.1 ⟨[], by decide⟩
  have h5 := (components_persist wC6 5 "Health" 7).2.2 (by decide)
  exact ⟨h0, h5.1, h5.2⟩

/-- A world with one registered entity (handle 0), for the attribute-store
witnesses. -/
def wReg : World := (World.new 1 1).add_entity bTriv

theorem World.set_component_components (w : World) {h : Int}
    {bag : List (String × AnyBox)}
    (hbag : alookup h w.components = some bag) (t : String) (v : Int) :
    (w.set_component h t v).components =
      aset h (aset t ⟨t, v⟩ bag) w.components := by
  unfold World.set_component
  simp only [hbag]

theorem World.get_component_lookup (w : World) {h : Int}
    {bag : List (String × AnyBox)}
    (hbag : alookup h w.components = some bag) (t : String) :
    w.get_component h t =
      match alookup t bag with
      | some box => if box.typeKey = t then some box.payload else none
      | none => none := by
  unfold World.get_component
  simp only [hbag]

/-- C9: for a registered handle, setting an attribute twice under the same
type key keeps exactly the last value (insert replaces — at most one value
per type per entity), and a type key never set on the handle is unaffected
by those writes, so reading it yields the same absence as before. -/
theorem attribute_overwrite (w : World) (h : Int) (tA tB : String)
    (v1 v2 : Int) (hreg : ∃ bag, alookup h w.components = some bag)
    (hne : tB ≠ tA) :
    ((w.set_component h tA v1).set_component h tA v2).get_component h tA
        = some v2 ∧
      ((w.set_component h tA v1).set_component h tA v2).get_component h tB
        = w.get_component h tB := by
  obtain ⟨bag, hbag⟩ := hreg
  have hset1 : (w.set_component h tA v1).components =
      aset h (aset tA ⟨tA, v1⟩ bag) w.components :=
    World.set_component_components w hbag tA v1
  have hlook1 : alookup h (w.set_component h tA v1).components =
      some (aset tA ⟨tA, v1⟩ bag) := by
    rw [hset1]
    exact alookup_aset_self _ _ _
  have hset2 : ((w.set_component h tA v1).set_component h tA v2).components =
      aset h (aset tA ⟨tA, v2⟩ (aset tA ⟨tA, v1⟩ bag))
        (w.set_component h tA v1).components :=
    World.set_component_components _ hlook1 tA v2
  have hlook2 : alookup h
      ((w.set_component h tA v1).set_component h tA v2).components =
      some (aset tA ⟨tA, v2⟩ (aset tA ⟨tA, v1⟩ bag)) := by
    rw [hset2]
    exact alookup_aset_self _ _ _
  constructor
  · rw [World.get_component_lookup _ hlook2]
    simp only [alookup_aset_self]
    simp
  · rw [World.get_component_lookup _ hlook2,
      World.get_component_lookup _ hbag,
      alookup_aset_ne hne, alookup_aset_ne hne]

/-- Witness for `attribute_overwrite`: on the registered handle 0 of
`wReg`, setting type key "A" to 1 then 2 reads back 2, and the never-set
type key "B" reads back absence. -/
theorem attribute_overwrite_witness :
    ((wReg.set_component 0 "A" 1).set_component 0 "A" 2).get_component 0 "A"
        = some 2 ∧
      ((wReg.set_component 0 "A" 1).set_component 0 "A" 2).get_component 0 "B"
        = none := by
  have h := attribute_overwrite wReg 0 "A" "B" 1 2 ⟨[], by decide⟩
    (by decide)
  exact ⟨h.1, h.2.trans (by decide)⟩

/-- The handle an event carries. -/
def evId : Ev → Int
  | .start i => i
  | .update i => i

/-- The events of one entity: the trace filtered to handle `h`. -/
def hEvs (h : Int) (l : List Ev) : List Ev :=
  l.filter fun ev => evId ev == h

theorem hEvs_append (h : Int) (a b : List Ev) :
    hEvs h (a ++ b) = hEvs h a ++ hEvs h b :=
  List.filter_append _ _

theorem hEvs_visitEvs_eq (h : Int) (t : EntityData) (hid : t.id = h) :
    hEvs h (visitEvs t) = visitEvs t := by
  subst hid
  unfold hEvs visitEvs
  by_cases hs : t.started <;> simp [hs, evId]

theorem hEvs_visitEvs_ne (h : Int) (t : EntityData) (hid : t.id ≠ h) :
    hEvs h (visitEvs t) = [] := by
  unfold hEvs visitEvs
  by_cases hs : t.started <;> simp [hs, evId, hid]

theorem hEvs_flatMap_not_mem (h : Int) (ts : List EntityData)
    (hno : ∀ t ∈ ts, t.id ≠ h) :
    hEvs h (ts.flatMap visitEvs) = [] := by
  induction ts with
  | nil => rfl
  | cons t ts ih =>
    rw [List.flatMap_cons, hEvs_append,
      hEvs_visitEvs_ne h t (hno t (by simp)), List.nil_append]
    exact ih fun s hs => hno s (by simp [hs])

theorem hEvs_flatMap_mem (h : Int) (ts : List EntityData) (t : EntityData)
    (hmem : t ∈ ts) (hid : t.id = h) (hnd : (entityIds ts).Nodup) :
    hEvs h (ts.flatMap visitEvs) = visitEvs t := by
  induction ts with
  | nil => simp at hmem
  | cons u ts ih =>
    have hnd2 : (∀ x ∈ ts, ¬x.id = u.id) ∧
        (List.map (fun e => e.id) ts).Nodup := by
      simpa [entityIds] using hnd
    have hnd' : (entityIds ts).Nodup := hnd2.2
    have hhead : u.id ∉ entityIds ts := by
      intro hmem
      rcases List.mem_map.mp hmem with ⟨s, hs, hsid⟩
      exact hnd2.1 s hs hsid
    rcases List.mem_cons.mp hmem with rfl | hmem'
    · rw [List.flatMap_cons, hEvs_append, hEvs_visitEvs_eq h t hid]
      have hrest : hEvs h (ts.flatMap visitEvs) = [] := by
        apply hEvs_flatMap_not_mem
        intro s hs hsid
        exact hhead (by
          rw [hid, ← hsid]
          exact List.mem_map.mpr ⟨s, hs, rfl⟩)
      rw [hrest, List.append_nil]
    · have hune : u.id ≠ h := by
        intro hu
        exact hhead (by
          rw [hu, ← hid]
          exact List.mem_map.mpr ⟨t, hmem', rfl⟩)
      rw [List.flatMap_cons, hEvs_append, hEvs_visitEvs_ne h u hune,
        List.nil_append]
      exact ih hmem' hnd'

theorem filtered_ids_nodup (w : World) (hwf : WFWorld w) :
    (entityIds w.filteredEntities).Nodup := by
  rw [World.filteredEntities_eq]
  exact ((List.filter_sublist _).map _).nodup hwf.1

/-- What one tick does to the trace and slot of a fixed handle `h`:
if no live slot carries `h`, the tick emits no `h`-event and any post-tick
slot carrying `h` is a freshly added unstarted one; if a live slot carries
`h`, the tick emits exactly that slot's visit events and every post-tick
slot carrying `h` is started. -/
theorem tick_cases (w : World) (hwf : WFWorld w) (h : Int) :
    WFWorld (w.update_entities).world ∧
      w.next_id ≤ (w.update_entities).world.next_id ∧
      ((∀ t ∈ w.filteredEntities, t.id ≠ h) →
        hEvs h (w.update_entities).events = [] ∧
          ∀ e ∈ (w.update_entities).world.entities, e.id = h →
            w.next_id ≤ e.id ∧ e.started = false) ∧
      ∀ t ∈ w.filteredEntities, t.id = h →
        hEvs h (w.update_entities).events = visitEvs t ∧
          ∀ e ∈ (w.update_entities).world.entities, e.id = h →
            e.started = true := by
  obtain ⟨hb, hc, hni, hwf'⟩ := World.update_state w hwf
  refine ⟨hwf', hni, ?_, ?_⟩
  · intro hno
    constructor
    · rw [World.update_events]
      exact hEvs_flatMap_not_mem h _ hno
    · intro e he hid
      rcases hb e he with ⟨t, ht, h1, h2⟩ | ⟨hlo, hst⟩
      · exact absurd (h1 ▸ hid) (hno t ht)
      · exact ⟨hid ▸ hlo, hst⟩
  · intro t ht hid
    constructor
    · rw [World.update_events]
      exact hEvs_flatMap_mem h _ t ht hid (filtered_ids_nodup w hwf)
    · intro e he heid
      rcases hb e he with ⟨t', ht', h1, h2⟩ | ⟨hlo, hst⟩
      · exact h2
      · exfalso
        have htent : t ∈ w.entities := ((mem_filteredEntities w t).mp ht).1
        have := hwf.2 t htent
        rw [hid] at this
        rw [heid] at hlo
        omega

theorem runTicks_succ (w : World) (k : Nat) :
    (w.runTicks (k + 1)).2 =
      (w.update_entities).events ::
        ((w.update_entities).world.runTicks k).2 := rfl

/-- A handle carried by no live slot stays absent (handles are never
reused), so its event trace is blank forever. -/
theorem absent_trace (k : Nat) :
    ∀ (w : World) (h : Int), WFWorld w →
      (∀ e ∈ w.entities, e.id ≠ h) → h < w.next_id →
      ((w.runTicks k).2).map (hEvs h) = List.replicate k [] := by
  induction k with
  | zero => intro w h _ _ _; rfl
  | succ k ih =>
    intro w h hwf habs hlt
    obtain ⟨hwf', hni, hno, -⟩ := tick_cases w hwf h
    have hnotgt : ∀ t ∈ w.filteredEntities, t.id ≠ h := fun t ht =>
      habs t ((mem_filteredEntities w t).mp ht).1
    obtain ⟨hevs, hafter⟩ := hno hnotgt
    have habs' : ∀ e ∈ (w.update_entities).world.entities, e.id ≠ h := by
      intro e he hid
      have := (hafter e he hid).1
      omega
    rw [runTicks_succ, List.map_cons, hevs,
      ih _ _ hwf' habs' (by omega), List.replicate_succ]

/-- A handle whose every live slot is already started contributes one
bare update event per tick until its removal, then nothing. -/
theorem started_trace (k : Nat) :
    ∀ (w : World) (h : Int), WFWorld w →
      (∀ e ∈ w.entities, e.id = h → e.started = true) → h < w.next_id →
      ∃ m r, m + r = k ∧
        ((w.runTicks k).2).map (hEvs h) =
          List.replicate m [Ev.update h] ++ List.replicate r [] := by
  induction k with
  | zero => intro w h _ _ _; exact ⟨0, 0, rfl, rfl⟩
  | succ k ih =>
    intro w h hwf hst hlt
    obtain ⟨hwf', hni, hno, hyes⟩ := tick_cases w hwf h
    by_cases hex : ∃ t ∈ w.filteredEntities, t.id = h
    · obtain ⟨t, ht, hid⟩ := hex
      obtain ⟨hevs, hafter⟩ := hyes t ht hid
      have htst : t.started = true :=
        hst t ((mem_filteredEntities w t).mp ht).1 hid
      have hvis : visitEvs t = [Ev.update h] := by
        unfold visitEvs
        rw [htst, hid]
        simp
      obtain ⟨m, r, hmr, htrace⟩ :=
        ih _ h hwf' (fun e he heid => hafter e he heid) (by omega)
      refine ⟨m + 1, r, by omega, ?_⟩
      rw [runTicks_succ, List.map_cons, hevs, hvis, htrace,
        List.replicate_succ]
      simp
    · push_neg at hex
      obtain ⟨hevs, hafter⟩ := hno hex
      have habs' : ∀ e ∈ (w.update_entities).world.entities, e.id ≠ h := by
        intro e he hid
        have := (hafter e he hid).1
        omega
      have htrace := absent_trace k _ h hwf' habs' (by omega)
      refine ⟨0, k + 1, by omega, ?_⟩
      rw [runTicks_succ, List.map_cons, hevs, htrace, List.replicate_succ]
      simp

/-- A handle whose every live slot is unstarted: either some tick visits it
for the first time — that tick emits start immediately followed by update,
later ticks emit one update each until removal, then nothing — or it is
never visited and the trace is blank. -/
theorem unstarted_trace (k : Nat) :
    ∀ (w : World) (h : Int), WFWorld w →
      (∀ e ∈ w.entities, e.id = h → e.started = false) →
      (∃ a m r, a + 1 + m + r = k ∧
        ((w.runTicks k).2).map (hEvs h) =
          List.replicate a [] ++
            [Ev.start h, Ev.update h] ::
              (List.replicate m [Ev.update h] ++ List.replicate r [])) ∨
      ((w.runTicks k).2).map (hEvs h) = List.replicate k [] := by
  induction k with
  | zero => intro w h _ _; exact Or.inr rfl
  | succ k ih =>
    intro w h hwf hunst
    obtain ⟨hwf', hni, hno, hyes⟩ := tick_cases w hwf h
    by_cases hex : ∃ t ∈ w.filteredEntities, t.id = h
    · obtain ⟨t, ht, hid⟩ := hex
      have htent : t ∈ w.entities := ((mem_filteredEntities w t).mp ht).1
      obtain ⟨hevs, hafter⟩ := hyes t ht hid
      have htst : t.started = false := hunst t htent hid
      have hvis : visitEvs t = [Ev.start h, Ev.update h] := by
        unfold visitEvs
        rw [htst, hid]
        simp
      have hlt : h < w.next_id := by
        have := hwf.2 t htent
        omega
      obtain ⟨m, r, hmr, htrace⟩ := started_trace k _ h hwf'
        (fun e he heid => hafter e he heid) (by omega)
      refine Or.inl ⟨0, m, r, by omega, ?_⟩
      rw [runTicks_succ, List.map_cons, hevs, hvis, htrace]
      simp
    · push_neg at hex
      obtain ⟨hevs, hafter⟩ := hno hex
      have hunst' : ∀ e ∈ (w.update_entities).world.entities,
          e.id = h → e.started = false := fun e he heid =>
        (hafter e he heid).2
      rcases ih _ h hwf' hunst' with ⟨a, m, r, harm, htrace⟩ | htrace
      · refine Or.inl ⟨a + 1, m, r, by omega, ?_⟩
        rw [runTicks_succ, List.map_cons, hevs, htrace, List.replicate_succ,
          List.cons_append]
      · exact Or.inr (by
          rw [runTicks_succ, List.map_cons, hevs, htrace,
            List.replicate_succ])

/-- C8: run any number of ticks from a world whose slots are all unstarted
(as the composition root builds it) with sane handles.  For every handle,
the per-tick trace of its events is either blank in every tick (the entity
was never visited — e.g. removed before its first tick), or: blank ticks,
then one tick emitting exactly `start` immediately followed by `update` —
start runs exactly once, strictly before the first update, in the same
tick as that first update — then one bare `update` per tick while it
lives, then blank ticks once removed. -/
theorem start_once (w : World) (k : Nat) (h : Int) (hwf : WFWorld w)
    (hunst : ∀ e ∈ w.entities, e.started = false) :
    (∃ a m r, a + 1 + m + r = k ∧
      ((w.runTicks k).2).map (hEvs h) =
        List.replicate a [] ++
          [Ev.start h, Ev.update h] ::
            (List.replicate m [Ev.update h] ++ List.replicate r [])) ∨
      ((w.runTicks k).2).map (hEvs h) = List.replicate k [] :=
  unstarted_trace k w h hwf fun e he _ => hunst e he

/-- Witness for `start_once`: in `wC2` over two ticks, handle 0's trace is
`[start 0, update 0]` in tick 1 and `[update 0]` in tick 2. -/
theorem start_once_witness :
    ((wC2.runTicks 2).2).map (hEvs 0) =
        [[Ev.start 0, Ev.update 0], [Ev.update 0]] ∧
      ((∃ a m r, a + 1 + m + r = 2 ∧
          ((wC2.runTicks 2).2).map (hEvs 0) =
            List.replicate a [] ++
              [Ev.start 0, Ev.update 0] ::
                (List.replicate m [Ev.update 0] ++ List.replicate r [])) ∨
        ((wC2.runTicks 2).2).map (hEvs 0) = List.replicate 2 []) :=
  ⟨by decide, start_once wC2 2 0 ⟨by decide, by decide⟩ (by decide)⟩

end TermEngine
